import Mathlib

/-!
# Verification of the packaging-line discrete-event simulation (`src/main.py`)

This file gives a shallow embedding of the simulator in `src/main.py` and
proves properties of it.  The embedding is parametric in the time type `T`
(the Python code uses floating-point seconds; we model time as an arbitrary
linearly ordered commutative ring with a floor function, which covers `ℚ`,
`ℝ`, and — for concrete executable witnesses — `ℤ`).

Random durations (`t_cf`, `t_sep`, `t_b`, `t_glue`, `t_pal` backed by Python's
seeded `random`) are modelled as an injected duration stream `d : ℕ → T`;
the simulation state carries the index of the next draw, and each successful
`try_*` handler consumes exactly one draw, mirroring the one duration drawn
per started job in the code.

The event heap `self.h` of `(time, typ, payload)` tuples is modelled as a
list together with a `popMin` operation returning the least element in the
Python tuple order: time first, then the handler-name string
lexicographically, then the payload tuple.  `print` output is not modelled,
except that the `[COMPLETE]` tag printed for a pallet record is carried as a
`Bool` in the completion record (mirroring the `complete` flag of the spec's
CompletionRecord).
-/

set_option linter.unusedSectionVars false
set_option linter.unusedVariables false

namespace PackagingSim

variable {T : Type} [LinearOrderedCommRing T] [FloorRing T]

/-! ## Kernel-friendly lexicographic comparison of character lists

Python compares the `typ` strings of heap entries lexicographically; we
implement that comparison as a structurally recursive boolean function (so
that concrete runs evaluate inside the kernel) and relate it to `List.Lex`.
-/

def charListLtB : List Char → List Char → Bool
  | [], [] => false
  | [], _ :: _ => true
  | _ :: _, [] => false
  | a :: as, b :: bs => if a < b then true else if b < a then false else charListLtB as bs

/-- A boolean strict-order: irreflexive, transitive, and such that two
elements incomparable both ways are equal. -/
structure StrictB {α : Type*} (lt : α → α → Bool) : Prop where
  irrefl : ∀ a, lt a a = false
  trans : ∀ a b c, lt a b = true → lt b c = true → lt a c = true
  eq_of_not : ∀ a b, lt a b = false → lt b a = false → a = b

/-- Lexicographic combination of boolean strict orders on a product. -/
def lexB {α β : Type*} (ltA : α → α → Bool) (ltB : β → β → Bool) :
    α × β → α × β → Bool := fun x y =>
  if ltA x.1 y.1 then true else if ltA y.1 x.1 then false else ltB x.2 y.2

/-- Lift of a boolean strict order to `Option`, with `none` least
(the `none` payload of `try_*`/`done_*` events never meets the `some`
payload of pause events at equal time and kind, so the choice is
immaterial; it only has to be a strict order). -/
def optLt {γ : Type*} (lt : γ → γ → Bool) : Option γ → Option γ → Bool
  | none, none => false
  | none, some _ => true
  | some _, none => false
  | some x, some y => lt x y

/-! ## Stations and event kinds

The line layout is fixed in the code:
`CaseFormer → Separator → B1 → B2 → B3 → B4 → Glue/Date → Palletizer`
with seven buffers indexed `0 = CF→Sep, …, 6 = Glue→Pallet`. -/

inductive Station
  | CF | SEP | B1 | B2 | B3 | B4 | GLUE | PAL
  deriving DecidableEq, Fintype, Repr

/-- Handler keys of the event heap.  The code keys handlers by strings
`"try_CF"`, …, `"done_PAL"`, `"pause_start"`, `"pause_end"`; we use a tagged
union and recover the strings via `typStr`. -/
inductive EKind
  | tryE : Station → EKind
  | doneE : Station → EKind
  | pause_start
  | pause_end
  deriving DecidableEq, Fintype, Repr

/-- Station-name suffix as used in the handler-key strings. -/
def stName : Station → String
  | .CF => "CF" | .SEP => "SEP" | .B1 => "B1" | .B2 => "B2"
  | .B3 => "B3" | .B4 => "B4" | .GLUE => "GLUE" | .PAL => "PAL"

/-- The exact `typ` string of a heap entry in the code. -/
def typStr : EKind → String
  | .tryE X => "try_" ++ stName X
  | .doneE X => "done_" ++ stName X
  | .pause_start => "pause_start"
  | .pause_end => "pause_end"

/-- Per-station duplicated wiring of the code (`in_idx`/`out_idx` of
`try_B`/`done_B` and the hard-coded indices of the other handlers):
index of the input buffer a station draws from (the first station has
none). -/
def inIdx : Station → Option (Fin 7)
  | .CF => none
  | .SEP => some 0
  | .B1 => some 1
  | .B2 => some 2
  | .B3 => some 3
  | .B4 => some 4
  | .GLUE => some 5
  | .PAL => some 6

/-- Index of the output buffer a station pushes into (the palletizer has
none; it counts cases instead). -/
def outIdx : Station → Option (Fin 7)
  | .CF => some 0
  | .SEP => some 1
  | .B1 => some 2
  | .B2 => some 3
  | .B3 => some 4
  | .B4 => some 5
  | .GLUE => some 6
  | .PAL => none

/-- Upstream neighbour notified on completion (buffer space freed). -/
def upstream : Station → Option Station
  | .CF => none
  | .SEP => some .CF
  | .B1 => some .SEP
  | .B2 => some .B1
  | .B3 => some .B2
  | .B4 => some .B3
  | .GLUE => some .B4
  | .PAL => some .GLUE

/-- Downstream neighbour notified on completion (new unit available). -/
def downstream : Station → Option Station
  | .CF => some .SEP
  | .SEP => some .B1
  | .B1 => some .B2
  | .B2 => some .B3
  | .B3 => some .B4
  | .B4 => some .GLUE
  | .GLUE => some .PAL
  | .PAL => none

/-- Station writing into buffer `j` (each buffer has exactly one writer). -/
def writerOf : Fin 7 → Station
  | 0 => .CF | 1 => .SEP | 2 => .B1 | 3 => .B2 | 4 => .B3 | 5 => .B4 | 6 => .GLUE

/-- Station reading from buffer `i` (each buffer has exactly one reader). -/
def readerOf : Fin 7 → Station
  | 0 => .SEP | 1 => .B1 | 2 => .B2 | 3 => .B3 | 4 => .B4 | 5 => .GLUE | 6 => .PAL

/-- A heap entry `(time, typ, payload)`.  The payload is `None` for
`try_*`/`done_*` events and the `(label, start, end)` triple for pause
events. -/
structure Event (T : Type) where
  time : T
  typ : EKind
  payload : Option (String × T × T)
  deriving DecidableEq

/-- Python truncation `int(q)` (toward zero). -/
def pyInt (q : T) : ℤ := if 0 ≤ q then ⌊q⌋ else ⌈q⌉

/-- Comparison key of a heap entry: Python compares the
`(time, typ, payload)` tuples componentwise, strings lexicographically. -/
def evKey (e : Event T) : T × List Char × Option (List Char × T × T) :=
  (e.time, (typStr e.typ).data, e.payload.map fun p => (p.1.data, p.2))

/-- Boolean strict order on payload components. -/
def timeLtB (a b : T) : Bool := decide (a < b)

/-- The Python `<` on heap tuples, as a boolean comparator on events. -/
def evLt (a b : Event T) : Bool :=
  lexB timeLtB (lexB charListLtB (optLt (lexB charListLtB (lexB timeLtB timeLtB))))
    (evKey a) (evKey b)

/-- `heapq.heappush`: insert an event into the heap.  The heap is modelled
as a multiset (list); no validation of any kind is performed on the time,
mirroring the bare `heapq.heappush(self.h, (time, typ, payload))` calls. -/
def heappush (l : List (Event T)) (e : Event T) : List (Event T) := e :: l

/-- `heapq.heappop`: remove and return the least entry in tuple order.
When several entries are equal in the order they are identical tuples, so
which one is removed is immaterial; we take the first. -/
def popMin : List (Event T) → Option (Event T × List (Event T))
  | [] => none
  | e :: es =>
    match popMin es with
    | none => some (e, [])
    | some (m, rest) => if evLt m e then some (m, e :: rest) else some (e, es)

/-! ## Configuration, production calendar, and simulation state -/

/-- The configuration data consumed by `Sim.__init__` (shift bounds in
`(hour, minute)` pairs, offsets in minutes, pause intervals, pallet size,
and the seven buffer capacities).  Duration-distribution parameters and the
seed are not part of the core model: durations enter through the injected
stream `d`. -/
structure Config where
  start_hm : ℤ × ℤ
  end_hm : ℤ × ℤ
  prep_min : ℤ
  clean_last_min : ℤ
  breaks : List (ℤ × ℤ × ℤ × ℤ)
  downtimes : List (ℤ × ℤ × ℤ × ℤ)
  cases_per_pallet : ℕ
  buffers : Fin 7 → ℤ

variable {cfg : Config} {d : ℕ → T}

/-- `to_sec(h, m) = h*3600 + m*60`. -/
def to_sec (h m : ℤ) : T := (h : T) * 3600 + (m : T) * 60

/-- One pass of the break-subtraction loop in `windows_from_shift`:
clip a break `[bs, be)` out of every interval. -/
def cutBreak (ivs : List (T × T)) (bs be : T) : List (T × T) :=
  ivs.flatMap fun ab =>
    if be ≤ ab.1 ∨ bs ≥ ab.2 then [ab]
    else
      (if ab.1 < bs then [(ab.1, bs)] else []) ++ (if be < ab.2 then [(be, ab.2)] else [])

/-- `windows_from_shift`: the production windows, `run_start`, and the raw
shift end `e` (the loop cutoff is the shift end, not the cleanup-adjusted
`run_end`). -/
def windows_from_shift (cfg : Config) : List (T × T) × T × T :=
  let s : T := to_sec cfg.start_hm.1 cfg.start_hm.2
  let e : T := to_sec cfg.end_hm.1 cfg.end_hm.2
  let run_start := s + (cfg.prep_min : T) * 60
  let run_end := e - (cfg.clean_last_min : T) * 60
  (cfg.breaks.foldl
      (fun acc b => cutBreak acc (to_sec b.1 b.2.1) (to_sec b.2.2.1 b.2.2.2))
      [(run_start, run_end)],
    run_start, e)

/-- `in_window`: membership in some half-open production window. -/
def in_window (t : T) (ws : List (T × T)) : Bool :=
  ws.any fun ab => decide (ab.1 ≤ t) && decide (t < ab.2)

def winsOf (cfg : Config) : List (T × T) := (windows_from_shift cfg).1

def runStartOf (cfg : Config) : T := (windows_from_shift cfg).2.1

def shiftEndOf (cfg : Config) : T := (windows_from_shift cfg).2.2

/-- The mutable state of `Sim`: clock, buffer levels, per-station busy
counts, counters, result lists, pallet lock, the event heap `h`, and the
index `rix` of the next duration draw. -/
structure St (T : Type) where
  now : T
  buf : Fin 7 → ℤ
  busy : Station → ℤ
  cases_out : ℕ
  pallets : ℕ
  events : List (ℕ × ℤ × Bool)
  log : List (String × ℤ × Option ℕ × Option ℕ)
  lock_active : Bool
  lock_target_cases : Option ℕ
  h : List (Event T)
  rix : ℕ

/-- Every station is created as `ServerPool(name, 1)`. -/
def servers (_ : Station) : ℤ := 1

def can_run (cfg : Config) (s : St T) : Bool := in_window s.now (winsOf cfg)

/-- Input-buffer guard of `try_*` (`self.buf[in_idx] <= 0`; absent for CF). -/
def inBlockedB (s : St T) (X : Station) : Bool :=
  match inIdx X with
  | some i => decide (s.buf i ≤ 0)
  | none => false

/-- Output-buffer guard of `try_*` (`self.buf[out_idx] >= self.bufcap[out_idx]`;
absent for PAL). -/
def outBlockedB (cfg : Config) (s : St T) (X : Station) : Bool :=
  match outIdx X with
  | some j => decide (cfg.buffers j ≤ s.buf j)
  | none => false

/-- The common shape of `try_CF`/`try_SEP`/`try_B`/`try_GLUE`/`try_PAL`:
four guards in order (production window, free server, input available,
output space), then draw a duration, occupy a server and schedule `done_*`. -/
def tryStation (cfg : Config) (d : ℕ → T) (X : Station) (s : St T) : St T :=
  if ¬ can_run cfg s then s
  else if servers X ≤ s.busy X then s
  else if inBlockedB s X then s
  else if outBlockedB cfg s X then s
  else
    { s with
      busy := Function.update s.busy X (s.busy X + 1),
      h := heappush s.h (⟨s.now + d s.rix, .doneE X, none⟩ : Event T),
      rix := s.rix + 1 }

/-- The pallet-tracking block of `done_PAL` (lines 274–288): increment
`cases_out`, then resolve the lock.  The `Bool` in an appended record
mirrors the `[COMPLETE]` tag printed in the lock-discharge branch. -/
def palTrack (cfg : Config) (s : St T) : St T :=
  let c := s.cases_out + 1
  let lockHit : Bool := s.lock_active &&
    (match s.lock_target_cases with
     | some tgt => decide (tgt ≤ c)
     | none => false)
  if lockHit then
    let s' :=
      if c % cfg.cases_per_pallet = 0 then
        { s with cases_out := c, pallets := s.pallets + 1,
                 events := s.events ++ [(s.pallets + 1, pyInt s.now, true)] }
      else { s with cases_out := c }
    { s' with lock_active := false, lock_target_cases := none }
  else
    if c % cfg.cases_per_pallet = 0 then
      { s with cases_out := c, pallets := s.pallets + 1,
               events := s.events ++ [(s.pallets + 1, pyInt s.now, false)] }
    else { s with cases_out := c }

/-- The `heappush` notifications at the end of every `done_*` handler:
retry self, notify upstream, notify downstream, all at the current time. -/
def notifications (X : Station) (t : T) : List (Event T) :=
  [(⟨t, .tryE X, none⟩ : Event T)]
    ++ ((upstream X).toList.map fun Y => (⟨t, .tryE Y, none⟩ : Event T))
    ++ ((downstream X).toList.map fun Y => (⟨t, .tryE Y, none⟩ : Event T))

/-- The common shape of `done_CF`/`done_SEP`/`done_B`/`done_GLUE`/`done_PAL`:
free the server, move one unit (input buffer down, output buffer up; the
palletizer counts cases instead of filling an output buffer), notify. -/
def doneStation (cfg : Config) (X : Station) (s : St T) : St T :=
  let s1 := { s with busy := Function.update s.busy X (s.busy X - 1) }
  let s2 :=
    match inIdx X with
    | some i => { s1 with buf := Function.update s1.buf i (s1.buf i - 1) }
    | none => s1
  let s3 :=
    match outIdx X with
    | some j => { s2 with buf := Function.update s2.buf j (s2.buf j + 1) }
    | none => s2
  let s4 := if X = .PAL then palTrack cfg s3 else s3
  { s4 with h := notifications X s4.now ++ s4.h }

/-- `typ.startswith("done_")`, decided on the tag (every `doneE` string and
no other starts with `"done_"`, by definition of `typStr`). -/
def isDoneTyp : EKind → Bool
  | .doneE _ => true
  | _ => false

/-- The per-event retiming applied by `_mark_incomplete`: a `done_*` event
strictly inside the pause is delayed by the pause length. -/
def shiftFn (start_t end_t : T) (e : Event T) : Event T :=
  if start_t < e.time ∧ e.time < end_t ∧ isDoneTyp e.typ = true then
    { e with time := e.time + (end_t - start_t) }
  else e

/-- The drain-and-repush loop of `_mark_incomplete`, fuelled by the heap
size: pop every entry in heap order, apply `f`, and collect (the collected
list is then the new heap content). -/
def drainAllAux (f : Event T → Event T) : ℕ → List (Event T) → List (Event T)
  | 0, _ => []
  | n + 1, l =>
    match popMin l with
    | none => []
    | some (e, rest) => f e :: drainAllAux f n rest

def drainAll (f : Event T → Event T) (l : List (Event T)) : List (Event T) :=
  drainAllAux f l.length l

/-- `_mark_incomplete(label, start_t, end_t)`: possibly set the pallet
lock, append the start-of-pause log record, and retime queued `done_*`
events falling strictly inside the pause. -/
def mark_incomplete (cfg : Config) (label : String) (start_t end_t : T) (s : St T) : St T :=
  let cpp := cfg.cases_per_pallet
  let in_pallet := s.cases_out % cpp
  let s1 :=
    if 0 < in_pallet then
      { s with lock_active := true,
               lock_target_cases := some ((s.cases_out / cpp + 1) * cpp) }
    else s
  let s2 :=
    { s1 with log := s1.log ++ [(label ++ "_START", pyInt start_t, some in_pallet, some cpp)] }
  { s2 with h := drainAll (shiftFn start_t end_t) s2.h }

def allStations : List Station := [.CF, .SEP, .B1, .B2, .B3, .B4, .GLUE, .PAL]

/-- `_end_pause(label, end_t)`: append the end-of-pause log record and wake
every station with a `try_*` notification at `end_t`. -/
def end_pause (label : String) (end_t : T) (s : St T) : St T :=
  { s with
    log := s.log ++ [(label ++ "_END", pyInt end_t, none, none)],
    h := (allStations.map fun X => (⟨end_t, .tryE X, none⟩ : Event T)) ++ s.h }

/-- The handler dispatch of `Sim.run` (string-keyed in the code). -/
def dispatch (cfg : Config) (d : ℕ → T) (e : Event T) (s : St T) : St T :=
  match e.typ with
  | .tryE X => tryStation cfg d X s
  | .doneE X => doneStation cfg X s
  | .pause_start =>
    match e.payload with
    | some (label, ps, pe) => mark_incomplete cfg label ps pe s
    | none => s
  | .pause_end =>
    match e.payload with
    | some (label, _, pe) => end_pause label pe s
    | none => s

def pausePair (label : String) (bs be : T) : List (Event T) :=
  [⟨bs, .pause_start, some (label, bs, be)⟩, ⟨be, .pause_end, some (label, bs, be)⟩]

/-- The initial heap of `Sim.__init__`: a `try_*` for every station at
`run_start`, plus a `pause_start`/`pause_end` pair per break and downtime. -/
def initEvents (cfg : Config) : List (Event T) :=
  (allStations.map fun X => (⟨runStartOf cfg, .tryE X, none⟩ : Event T))
    ++ cfg.breaks.flatMap
        (fun b => pausePair "BREAK" (to_sec b.1 b.2.1) (to_sec b.2.2.1 b.2.2.2))
    ++ cfg.downtimes.flatMap
        (fun b => pausePair "DOWNTIME" (to_sec b.1 b.2.1) (to_sec b.2.2.1 b.2.2.2))

/-- The state built by `Sim.__init__`. -/
def initSt (cfg : Config) : St T :=
  { now := runStartOf cfg
    buf := fun _ => 0
    busy := fun _ => 0
    cases_out := 0
    pallets := 0
    events := []
    log := []
    lock_active := false
    lock_target_cases := none
    h := initEvents cfg
    rix := 0 }

/-- The event loop of `Sim.run` (`while self.h and self.now < self.shift_end`),
fuelled; returns the final state and the list of processed events in
order. -/
def runAux (cfg : Config) (d : ℕ → T) : ℕ → St T → St T × List (Event T)
  | 0, s => (s, [])
  | n + 1, s =>
    if s.h ≠ [] ∧ s.now < shiftEndOf cfg then
      match popMin s.h with
      | none => (s, [])
      | some (e, rest) =>
        let out := runAux cfg d n (dispatch cfg d e { s with now := e.time, h := rest })
        (out.1, e :: out.2)
    else (s, [])

/-- Final state of a fuelled run from the initial state. -/
def runSim (cfg : Config) (d : ℕ → T) (fuel : ℕ) : St T :=
  (runAux cfg d fuel (initSt cfg)).1

/-- Trace of processed events of a fuelled run from the initial state. -/
def runTrace (cfg : Config) (d : ℕ → T) (fuel : ℕ) : List (Event T) :=
  (runAux cfg d fuel (initSt cfg)).2

/-! ## Effect lemmas for the handlers -/

/-! ## A generic invariant-preservation induction principle for the run loop -/

/-! ## Concrete configurations and duration streams for executable checks
(instantiated at `T = ℤ` so that runs evaluate inside the kernel) -/

/-- One-minute shift `[00:00, 00:01)`, no offsets, no pauses, pallet size 1,
all buffer capacities 10. -/
def cfgNoPause : Config :=
  { start_hm := (0, 0), end_hm := (0, 1), prep_min := 0, clean_last_min := 0,
    breaks := [], downtimes := [], cases_per_pallet := 1, buffers := fun _ => 10 }

def dur100 : ℕ → ℤ := fun _ => 100

def dur59 : ℕ → ℤ := fun _ => 59

/-- One-hour shift with a downtime `[00:01, 00:02)`, `CF→Sep` capacity 1,
other capacities 10, pallet size 1. -/
def cfgDowntime : Config :=
  { start_hm := (0, 0), end_hm := (1, 0), prep_min := 0, clean_last_min := 0,
    breaks := [], downtimes := [(0, 1, 0, 2)], cases_per_pallet := 1,
    buffers := fun i => if i = 0 then 1 else 10 }

def dur30 : ℕ → ℤ := fun _ => 30

/-- One-hour shift, no pauses, all capacities 10, pallet size 1: with unit
durations the line produces pallets. -/
def cfgPipeline : Config :=
  { start_hm := (0, 0), end_hm := (1, 0), prep_min := 0, clean_last_min := 0,
    breaks := [], downtimes := [], cases_per_pallet := 1, buffers := fun _ => 10 }

def dur1 : ℕ → ℤ := fun _ => 1

/-- A state whose CaseFormer server is occupied (for guard-frame checks). -/
def stBusyCF : St ℤ :=
  { now := 0, buf := fun _ => 0, busy := fun X => if X = .CF then 1 else 0,
    cases_out := 0, pallets := 0, events := [], log := [],
    lock_active := false, lock_target_cases := none, h := [], rix := 0 }

/-- One-hour shift with a break `[00:01, 00:02)`, all capacities 10. -/
def cfgBreak : Config :=
  { start_hm := (0, 0), end_hm := (1, 0), prep_min := 0, clean_last_min := 0,
    breaks := [(0, 1, 0, 2)], downtimes := [], cases_per_pallet := 1,
    buffers := fun _ => 10 }

/-- A state at time 60 with three queued events: a `done_SEP` at 70 (inside
a pause `(60,120)`), a `try_CF` at 70, and a `done_CF` at 130 (outside). -/
def stRetime : St ℤ :=
  { now := 60, buf := fun _ => 0, busy := fun _ => 0, cases_out := 0,
    pallets := 0, events := [], log := [], lock_active := false,
    lock_target_cases := none,
    h := [⟨70, .doneE .SEP, none⟩, ⟨70, .tryE .CF, none⟩, ⟨130, .doneE .CF, none⟩],
    rix := 0 }

/-- `stRetime` at clock 90 (inside the break of `cfgBreak`). -/
def stAt90 : St ℤ := { stRetime with now := 90 }

/-- Well-formedness of queued `pause_end` events: the end time in the
payload (which `_end_pause` uses for the wake-all notifications) equals the
event's own scheduled time.  `Sim.__init__` creates them this way and
nothing ever changes them. -/
def PauseEndWf (s : St T) : Prop :=
  ∀ e ∈ s.h, e.typ = .pause_end → ∃ (l : String) (q1 : T), e.payload = some (l, q1, e.time)

/-- Number of queued `done_X` events (in-flight jobs of station `X`). -/
def countDone (X : Station) (l : List (Event T)) : ℕ :=
  l.countP fun e => decide (e.typ = .doneE X)

/-- The reachability invariant behind the buffer/server bounds: each
station's busy count equals its number of queued `done_*` events and is at
most its (single) server; buffers are nonnegative; a buffer plus the
in-flight jobs of its writer fits the capacity; the in-flight jobs of a
buffer's reader are covered by its level. -/
def InvC4 (cfg : Config) (s : St T) : Prop :=
  (∀ X, s.busy X = (countDone X s.h : ℤ)) ∧
  (∀ X, s.busy X ≤ 1) ∧
  (∀ i, 0 ≤ s.buf i) ∧
  (∀ i, s.buf i + s.busy (writerOf i) ≤ cfg.buffers i) ∧
  (∀ i, s.busy (readerOf i) ≤ s.buf i)

/-- Total stock across the seven buffers. -/
def sumBuf (s : St T) : ℤ := ∑ i, s.buf i

/-- Total busy count across the eight stations. -/
def sumBusy (s : St T) : ℤ := ∑ X, s.busy X

/-- The pallet-lock invariant: while a lock is active, the target is a
positive multiple `k * palletSize` and the case count is strictly inside
the batch `((k-1) * palletSize, k * palletSize)`. -/
def LockInv (cpp : ℕ) (s : St T) : Prop :=
  s.lock_active = true →
    ∃ k : ℕ, 1 ≤ k ∧ s.lock_target_cases = some (k * cpp)
      ∧ (k - 1) * cpp < s.cases_out ∧ s.cases_out < k * cpp

/-- Eight-hour shift, pallet size 108, no pauses (for pallet-lock checks). -/
def cfgPallet : Config :=
  { start_hm := (0, 0), end_hm := (8, 0), prep_min := 0, clean_last_min := 0,
    breaks := [], downtimes := [], cases_per_pallet := 108, buffers := fun _ => 10 }

/-- A state with an active pallet lock at 107 of 108 cases. -/
def stLock : St ℤ :=
  { now := 5, buf := fun _ => 1, busy := fun _ => 1, cases_out := 107,
    pallets := 0, events := [], log := [], lock_active := true,
    lock_target_cases := some 108, h := [], rix := 0 }

/-- Everything still queued is scheduled at or after the current clock. -/
def PendingGeNow (s : St T) : Prop := ∀ e ∈ s.h, s.now ≤ e.time

/-- Well-formedness of the completion list: the pallet counter equals its
length, the sequence numbers are exactly `1, …, pallets` in order, the
timestamps are non-decreasing and bounded by the current clock. -/
def EventsInv (s : St T) : Prop :=
  s.pallets = s.events.length
    ∧ s.events.map Prod.fst = List.range' 1 s.pallets
    ∧ List.Chain' (· ≤ ·) (s.events.map fun r => r.2.1)
    ∧ (∀ r ∈ s.events, r.2.1 ≤ pyInt s.now)

/-! ## Proof layer -/

theorem StrictB.asymm {α : Type*} {lt : α → α → Bool} (h : StrictB lt) :
    ∀ a b, lt a b = true → lt b a = false := by
  intro a b hab
  by_contra hba
  rw [Bool.not_eq_false] at hba
  have := h.trans a b a hab hba
  rw [h.irrefl a] at this
  exact Bool.false_ne_true this

theorem StrictB.trichotomy {α : Type*} {lt : α → α → Bool} (h : StrictB lt) (a b : α) :
    lt a b = true ∨ lt b a = true ∨ a = b := by
  cases hab : lt a b with
  | true => exact Or.inl rfl
  | false =>
    cases hba : lt b a with
    | true => exact Or.inr (Or.inl rfl)
    | false => exact Or.inr (Or.inr (h.eq_of_not a b hab hba))

theorem StrictB.lexB {α β : Type*} {ltA : α → α → Bool} {ltB : β → β → Bool}
    (hA : StrictB ltA) (hB : StrictB ltB) : StrictB (PackagingSim.lexB ltA ltB) := by
  constructor
  · intro a
    simp [PackagingSim.lexB, hA.irrefl, hB.irrefl]
  · rintro ⟨a1, a2⟩ ⟨b1, b2⟩ ⟨c1, c2⟩ hab hbc
    simp only [PackagingSim.lexB] at *
    rcases hab' : ltA a1 b1 with _ | _ <;> rcases hbc' : ltA b1 c1 with _ | _ <;>
        simp [hab', hbc'] at hab hbc
    · -- both first components tie
      obtain ⟨hba, hab2⟩ := hab
      obtain ⟨hcb, hbc2⟩ := hbc
      have h1 : a1 = b1 := hA.eq_of_not a1 b1 hab' hba
      have h2 : b1 = c1 := hA.eq_of_not b1 c1 hbc' hcb
      subst h1; subst h2
      simp [hA.irrefl, hB.trans _ _ _ hab2 hbc2]
    · -- a1 = b1 (tie), b1 < c1
      obtain ⟨hba, _⟩ := hab
      have h1 : a1 = b1 := hA.eq_of_not a1 b1 hab' hba
      subst h1
      simp [hbc']
    · -- a1 < b1, b1 = c1 (tie)
      obtain ⟨hcb, _⟩ := hbc
      have h2 : b1 = c1 := hA.eq_of_not b1 c1 hbc' hcb
      subst h2
      simp [hab']
    · -- a1 < b1 < c1
      simp [hA.trans _ _ _ hab' hbc']
  · rintro ⟨a1, a2⟩ ⟨b1, b2⟩ hab hba
    simp only [PackagingSim.lexB] at *
    rcases h1 : ltA a1 b1 with _ | _ <;> rcases h2 : ltA b1 a1 with _ | _ <;>
        simp [h1, h2] at hab hba
    have := hA.eq_of_not a1 b1 h1 h2
    subst this
    have := hB.eq_of_not a2 b2 hab hba
    subst this
    rfl

theorem StrictB.optLt {γ : Type*} {lt : γ → γ → Bool} (h : StrictB lt) :
    StrictB (PackagingSim.optLt lt) := by
  constructor
  · intro a; cases a <;> simp [PackagingSim.optLt, h.irrefl]
  · intro a b c hab hbc
    cases a <;> cases b <;> cases c <;> simp_all [PackagingSim.optLt]
    exact h.trans _ _ _ hab hbc
  · intro a b hab hba
    cases a <;> cases b <;> simp_all [PackagingSim.optLt]
    exact h.eq_of_not _ _ hab hba

theorem charListLtB_iff (as bs : List Char) :
    charListLtB as bs = true ↔ List.Lex (· < ·) as bs := by
  induction as generalizing bs with
  | nil =>
    cases bs with
    | nil => simp [charListLtB]
    | cons b bs => simp [charListLtB]; exact List.Lex.nil
  | cons a as ih =>
    cases bs with
    | nil => simp [charListLtB]
    | cons b bs =>
      by_cases hab : a < b
      · simp [charListLtB, hab]; exact List.Lex.rel hab
      · by_cases hba : b < a
        · simp [charListLtB, hab, hba]
          intro h
          cases h with
          | cons h' => exact absurd hba (lt_irrefl a)
          | rel h' => exact absurd h' hab
        · have hEq : a = b := le_antisymm (le_of_not_lt hba) (le_of_not_lt hab)
          subst hEq
          simp [charListLtB, hab]
          rw [ih bs]
          constructor
          · intro h; exact List.Lex.cons h
          · intro h
            cases h with
            | cons h' => exact h'
            | rel h' => exact absurd h' (lt_irrefl a)

theorem strictB_charListLtB : StrictB charListLtB := by
  have hsto : IsStrictTotalOrder (List Char) (List.Lex (· < ·)) := inferInstance
  constructor
  · intro a
    rw [Bool.eq_false_iff]
    intro hcon
    exact hsto.irrefl a ((charListLtB_iff a a).1 hcon)
  · intro a b c hab hbc
    exact (charListLtB_iff a c).2
      (hsto.trans _ _ _ ((charListLtB_iff a b).1 hab) ((charListLtB_iff b c).1 hbc))
  · intro a b hab hba
    rcases hsto.trichotomous a b with h | h | h
    · rw [← charListLtB_iff] at h; rw [hab] at h; exact absurd h Bool.false_ne_true
    · exact h
    · rw [← charListLtB_iff] at h; rw [hba] at h; exact absurd h Bool.false_ne_true

theorem typStr_inj : ∀ a b : EKind, (typStr a).data = (typStr b).data → a = b := by
  decide

theorem outIdx_writer : ∀ j : Fin 7, outIdx (writerOf j) = some j := by decide

theorem writer_of_outIdx : ∀ (X : Station) (j : Fin 7), outIdx X = some j → writerOf j = X := by
  decide

theorem inIdx_reader : ∀ i : Fin 7, inIdx (readerOf i) = some i := by decide

theorem reader_of_inIdx : ∀ (X : Station) (i : Fin 7), inIdx X = some i → readerOf i = X := by
  decide

theorem strictB_timeLtB : StrictB (timeLtB (T := T)) := by
  constructor
  · intro a; simp [timeLtB]
  · intro a b c hab hbc
    simp only [timeLtB, decide_eq_true_eq] at *
    exact lt_trans hab hbc
  · intro a b hab hba
    simp only [timeLtB, decide_eq_false_iff_not, not_lt] at hab hba
    exact le_antisymm hba hab

theorem strictB_evLt : StrictB (evLt (T := T)) := by
  have h := (strictB_timeLtB (T := T)).lexB
    ((strictB_charListLtB).lexB (((strictB_charListLtB).lexB
      ((strictB_timeLtB (T := T)).lexB (strictB_timeLtB (T := T)))).optLt))
  constructor
  · intro a; exact h.irrefl (evKey a)
  · intro a b c hab hbc; exact h.trans _ _ _ hab hbc
  · intro a b hab hba
    have hk : evKey a = evKey b := h.eq_of_not _ _ hab hba
    obtain ⟨ta, ka, pa⟩ := a
    obtain ⟨tb, kb, pb⟩ := b
    simp only [evKey, Prod.mk.injEq] at hk
    obtain ⟨ht, hkk, hp⟩ := hk
    have hkind : ka = kb := typStr_inj _ _ hkk
    have hpay : pa = pb := by
      cases pa with
      | none =>
        cases pb with
        | none => rfl
        | some q => simp at hp
      | some p =>
        cases pb with
        | none => simp at hp
        | some q =>
          obtain ⟨pl, pr⟩ := p
          obtain ⟨ql, qr⟩ := q
          simp only [Option.map_some', Option.some.injEq, Prod.mk.injEq] at hp
          obtain ⟨hl, hr⟩ := hp
          have hls : pl = ql := by
            obtain ⟨pld⟩ := pl
            obtain ⟨qld⟩ := ql
            simp_all
          simp [hls, hr]
    simp [hkind, hpay, ht]

theorem popMin_none_iff (l : List (Event T)) : popMin l = none ↔ l = [] := by
  cases l with
  | nil => simp [popMin]
  | cons e es =>
    simp only [popMin]
    cases h : popMin es with
    | none => simp
    | some p =>
      obtain ⟨m, rest⟩ := p
      by_cases hlt : evLt m e <;> simp [hlt]

theorem popMin_perm {l : List (Event T)} {e : Event T} {rest : List (Event T)}
    (h : popMin l = some (e, rest)) : (e :: rest).Perm l := by
  induction l generalizing e rest with
  | nil => simp [popMin] at h
  | cons a as ih =>
    simp only [popMin] at h
    cases hm : popMin as with
    | none =>
      rw [hm] at h
      simp only [Option.some.injEq, Prod.mk.injEq] at h
      obtain ⟨he, hrest⟩ := h
      subst he; subst hrest
      have : as = [] := (popMin_none_iff as).1 hm
      subst this
      exact List.Perm.refl _
    | some p =>
      obtain ⟨m, mrest⟩ := p
      rw [hm] at h
      dsimp only at h
      by_cases hlt : evLt m a = true
      · rw [if_pos hlt] at h
        simp only [Option.some.injEq, Prod.mk.injEq] at h
        obtain ⟨he, hrest⟩ := h
        subst he; subst hrest
        exact (List.Perm.swap a m mrest).trans (List.Perm.cons a (ih hm))
      · rw [if_neg hlt] at h
        simp only [Option.some.injEq, Prod.mk.injEq] at h
        obtain ⟨he, hrest⟩ := h
        subst he; subst hrest
        exact List.Perm.refl _

theorem popMin_min {l : List (Event T)} {e : Event T} {rest : List (Event T)}
    (h : popMin l = some (e, rest)) : ∀ x ∈ l, evLt x e = false := by
  induction l generalizing e rest with
  | nil => simp [popMin] at h
  | cons a as ih =>
    simp only [popMin] at h
    cases hm : popMin as with
    | none =>
      rw [hm] at h
      simp only [Option.some.injEq, Prod.mk.injEq] at h
      obtain ⟨he, _⟩ := h
      subst he
      have : as = [] := (popMin_none_iff as).1 hm
      subst this
      intro x hx
      simp only [List.mem_singleton] at hx
      subst hx
      exact strictB_evLt.irrefl _
    | some p =>
      obtain ⟨m, mrest⟩ := p
      rw [hm] at h
      dsimp only at h
      by_cases hlt : evLt m a = true
      · rw [if_pos hlt] at h
        simp only [Option.some.injEq, Prod.mk.injEq] at h
        obtain ⟨he, _⟩ := h
        subst he
        intro x hx
        rcases List.mem_cons.1 hx with hxa | hxas
        · subst hxa
          exact strictB_evLt.asymm _ _ hlt
        · exact ih hm x hxas
      · rw [if_neg hlt] at h
        simp only [Option.some.injEq, Prod.mk.injEq] at h
        obtain ⟨he, _⟩ := h
        subst he
        intro x hx
        rcases List.mem_cons.1 hx with hxa | hxas
        · subst hxa
          exact strictB_evLt.irrefl _
        · -- x ∈ as: ¬ evLt x m and ¬ evLt m e imply ¬ evLt x e
          have hxm := ih hm x hxas
          rw [Bool.eq_false_iff]
          intro hxe
          rcases strictB_evLt.trichotomy x m with h1 | h1 | h1
          · rw [hxm] at h1; exact Bool.false_ne_true h1
          · exact hlt (strictB_evLt.trans _ _ _ h1 hxe)
          · subst h1
            exact hlt hxe

theorem popMin_mem {l : List (Event T)} {e : Event T} {rest : List (Event T)}
    (h : popMin l = some (e, rest)) : e ∈ l :=
  (popMin_perm h).mem_iff.1 (List.mem_cons_self e rest)

theorem popMin_length {l : List (Event T)} {e : Event T} {rest : List (Event T)}
    (h : popMin l = some (e, rest)) : rest.length + 1 = l.length := by
  have := (popMin_perm h).length_eq
  simpa using this

theorem drainAllAux_perm (f : Event T → Event T) :
    ∀ (n : ℕ) (l : List (Event T)), l.length ≤ n → (drainAllAux f n l).Perm (l.map f) := by
  intro n
  induction n with
  | zero =>
    intro l hl
    have : l = [] := List.length_eq_zero.1 (Nat.le_zero.1 hl)
    subst this
    simp [drainAllAux]
  | succ n ih =>
    intro l hl
    rw [drainAllAux]
    cases hp : popMin l with
    | none =>
      rw [popMin_none_iff] at hp
      subst hp
      simp
    | some p =>
      obtain ⟨e, rest⟩ := p
      have hperm := popMin_perm hp
      have hlen : rest.length + 1 = l.length := popMin_length hp
      have hrest : rest.length ≤ n := by omega
      have : (f e :: rest.map f).Perm (l.map f) := by
        have := hperm.map f
        simpa using this
      exact (List.Perm.cons (f e) (ih rest hrest)).trans this

theorem drainAll_perm (f : Event T → Event T) (l : List (Event T)) :
    (drainAll f l).Perm (l.map f) :=
  drainAllAux_perm f l.length l le_rfl


/-- The popped entry is independent of the arrival order: it depends only on
the multiset of queued events. -/
theorem popMin_fst_perm {l l' : List (Event T)} (hp : l.Perm l') :
    (popMin l).map Prod.fst = (popMin l').map Prod.fst := by
  cases h : popMin l with
  | none =>
    rw [popMin_none_iff] at h
    subst h
    have : l' = [] := hp.nil_eq.symm
    subst this
    rfl
  | some p =>
    obtain ⟨e, rest⟩ := p
    cases h' : popMin l' with
    | none =>
      rw [popMin_none_iff] at h'
      subst h'
      have : l = [] := hp.eq_nil
      subst this
      simp [popMin] at h
    | some q =>
      obtain ⟨e', rest'⟩ := q
      have he : e ∈ l' := hp.mem_iff.1 (popMin_mem h)
      have he' : e' ∈ l := hp.mem_iff.2 (popMin_mem h')
      have h1 := popMin_min h' e he
      have h2 := popMin_min h e' he'
      have : e = e' := strictB_evLt.eq_of_not _ _ h1 h2
      simp [this]

theorem tryStation_cases (cfg : Config) (d : ℕ → T) (X : Station) (s : St T) :
    tryStation cfg d X s = s ∨
      (can_run cfg s = true ∧ s.busy X < servers X ∧ inBlockedB s X = false ∧
        outBlockedB cfg s X = false ∧
        tryStation cfg d X s =
          { s with
            busy := Function.update s.busy X (s.busy X + 1),
            h := heappush s.h (⟨s.now + d s.rix, .doneE X, none⟩ : Event T),
            rix := s.rix + 1 }) := by
  unfold tryStation
  by_cases h1 : can_run cfg s = true
  · by_cases h2 : servers X ≤ s.busy X
    · left; simp [h1, h2]
    · by_cases h3 : inBlockedB s X = true
      · left; simp [h1, h2, h3]
      · by_cases h4 : outBlockedB cfg s X = true
        · left; simp [h1, h2, h3, h4]
        · right
          refine ⟨h1, lt_of_not_le h2, by simpa using h3, by simpa using h4, ?_⟩
          simp [h1, h2, h3, h4]
  · left; simp [h1]

theorem tryStation_now (X : Station) (s : St T) : (tryStation cfg d X s).now = s.now := by
  rcases tryStation_cases cfg d X s with h | ⟨_, _, _, _, h⟩ <;> rw [h]

theorem tryStation_buf (X : Station) (s : St T) : (tryStation cfg d X s).buf = s.buf := by
  rcases tryStation_cases cfg d X s with h | ⟨_, _, _, _, h⟩ <;> rw [h]

theorem tryStation_cases_out (X : Station) (s : St T) :
    (tryStation cfg d X s).cases_out = s.cases_out := by
  rcases tryStation_cases cfg d X s with h | ⟨_, _, _, _, h⟩ <;> rw [h]

theorem tryStation_pallets (X : Station) (s : St T) :
    (tryStation cfg d X s).pallets = s.pallets := by
  rcases tryStation_cases cfg d X s with h | ⟨_, _, _, _, h⟩ <;> rw [h]

theorem tryStation_events (X : Station) (s : St T) :
    (tryStation cfg d X s).events = s.events := by
  rcases tryStation_cases cfg d X s with h | ⟨_, _, _, _, h⟩ <;> rw [h]

theorem tryStation_log (X : Station) (s : St T) : (tryStation cfg d X s).log = s.log := by
  rcases tryStation_cases cfg d X s with h | ⟨_, _, _, _, h⟩ <;> rw [h]

theorem tryStation_lock_active (X : Station) (s : St T) :
    (tryStation cfg d X s).lock_active = s.lock_active := by
  rcases tryStation_cases cfg d X s with h | ⟨_, _, _, _, h⟩ <;> rw [h]

theorem tryStation_lock_target (X : Station) (s : St T) :
    (tryStation cfg d X s).lock_target_cases = s.lock_target_cases := by
  rcases tryStation_cases cfg d X s with h | ⟨_, _, _, _, h⟩ <;> rw [h]

theorem palTrack_busy (s : St T) : (palTrack cfg s).busy = s.busy := by
  unfold palTrack
  dsimp only
  split <;> split <;> rfl

theorem palTrack_buf (s : St T) : (palTrack cfg s).buf = s.buf := by
  unfold palTrack
  dsimp only
  split <;> split <;> rfl

theorem palTrack_now (s : St T) : (palTrack cfg s).now = s.now := by
  unfold palTrack
  dsimp only
  split <;> split <;> rfl

theorem palTrack_h (s : St T) : (palTrack cfg s).h = s.h := by
  unfold palTrack
  dsimp only
  split <;> split <;> rfl

theorem palTrack_log (s : St T) : (palTrack cfg s).log = s.log := by
  unfold palTrack
  dsimp only
  split <;> split <;> rfl

theorem palTrack_rix (s : St T) : (palTrack cfg s).rix = s.rix := by
  unfold palTrack
  dsimp only
  split <;> split <;> rfl

theorem palTrack_cases_out (s : St T) : (palTrack cfg s).cases_out = s.cases_out + 1 := by
  unfold palTrack
  dsimp only
  split <;> split <;> rfl

theorem doneStation_now (X : Station) (s : St T) : (doneStation cfg X s).now = s.now := by
  unfold doneStation
  cases X <;> simp [inIdx, outIdx, palTrack_now]

theorem doneStation_log (X : Station) (s : St T) : (doneStation cfg X s).log = s.log := by
  unfold doneStation
  cases X <;> simp [inIdx, outIdx, palTrack_log]

theorem doneStation_rix (X : Station) (s : St T) : (doneStation cfg X s).rix = s.rix := by
  unfold doneStation
  cases X <;> simp [inIdx, outIdx, palTrack_rix]

theorem doneStation_busy (X : Station) (s : St T) :
    (doneStation cfg X s).busy = Function.update s.busy X (s.busy X - 1) := by
  unfold doneStation
  cases X <;> simp [inIdx, outIdx, palTrack_busy]

theorem doneStation_h (X : Station) (s : St T) :
    (doneStation cfg X s).h = notifications X s.now ++ s.h := by
  unfold doneStation
  cases X <;> simp [inIdx, outIdx, palTrack_h, palTrack_now]

theorem mark_incomplete_now (label : String) (ps pe : T) (s : St T) :
    (mark_incomplete cfg label ps pe s).now = s.now := by
  unfold mark_incomplete
  dsimp only
  split <;> rfl

theorem mark_incomplete_buf (label : String) (ps pe : T) (s : St T) :
    (mark_incomplete cfg label ps pe s).buf = s.buf := by
  unfold mark_incomplete
  dsimp only
  split <;> rfl

theorem mark_incomplete_busy (label : String) (ps pe : T) (s : St T) :
    (mark_incomplete cfg label ps pe s).busy = s.busy := by
  unfold mark_incomplete
  dsimp only
  split <;> rfl

theorem mark_incomplete_cases_out (label : String) (ps pe : T) (s : St T) :
    (mark_incomplete cfg label ps pe s).cases_out = s.cases_out := by
  unfold mark_incomplete
  dsimp only
  split <;> rfl

theorem mark_incomplete_pallets (label : String) (ps pe : T) (s : St T) :
    (mark_incomplete cfg label ps pe s).pallets = s.pallets := by
  unfold mark_incomplete
  dsimp only
  split <;> rfl

theorem mark_incomplete_events (label : String) (ps pe : T) (s : St T) :
    (mark_incomplete cfg label ps pe s).events = s.events := by
  unfold mark_incomplete
  dsimp only
  split <;> rfl

theorem mark_incomplete_rix (label : String) (ps pe : T) (s : St T) :
    (mark_incomplete cfg label ps pe s).rix = s.rix := by
  unfold mark_incomplete
  dsimp only
  split <;> rfl

theorem mark_incomplete_h (label : String) (ps pe : T) (s : St T) :
    (mark_incomplete cfg label ps pe s).h = drainAll (shiftFn ps pe) s.h := by
  unfold mark_incomplete
  dsimp only
  split <;> rfl

theorem end_pause_now (label : String) (pe : T) (s : St T) :
    (end_pause label pe s).now = s.now := rfl

theorem end_pause_buf (label : String) (pe : T) (s : St T) :
    (end_pause label pe s).buf = s.buf := rfl

theorem end_pause_busy (label : String) (pe : T) (s : St T) :
    (end_pause label pe s).busy = s.busy := rfl

theorem end_pause_h (label : String) (pe : T) (s : St T) :
    (end_pause label pe s).h =
      (allStations.map fun X => (⟨pe, .tryE X, none⟩ : Event T)) ++ s.h := rfl

theorem dispatch_now (e : Event T) (s : St T) : (dispatch cfg d e s).now = s.now := by
  unfold dispatch
  cases e with
  | mk t k p =>
    cases k with
    | tryE X => exact tryStation_now X s
    | doneE X => exact doneStation_now X s
    | pause_start =>
      cases p with
      | none => rfl
      | some q =>
        obtain ⟨l, q1, q2⟩ := q
        exact mark_incomplete_now l q1 q2 s
    | pause_end =>
      cases p with
      | none => rfl
      | some q =>
        obtain ⟨l, q1, q2⟩ := q
        rfl

theorem runAux_invariant (P : St T → Prop)
    (hstep : ∀ s (e : Event T) rest, P s → popMin s.h = some (e, rest) →
      s.now < shiftEndOf cfg →
      P (dispatch cfg d e { s with now := e.time, h := rest })) :
    ∀ (n : ℕ) (s : St T), P s → P (runAux cfg d n s).1 := by
  intro n
  induction n with
  | zero => intro s hP; simpa [runAux] using hP
  | succ n ih =>
    intro s hP
    rw [runAux]
    by_cases hc : s.h ≠ [] ∧ s.now < shiftEndOf cfg
    · rw [if_pos hc]
      cases hpm : popMin s.h with
      | none => exact hP
      | some p =>
        obtain ⟨e, rest⟩ := p
        exact ih _ (hstep s e rest hP hpm hc.2)
    · rw [if_neg hc]
      exact hP

theorem runAux_trace_ne_nil {n : ℕ} {s : St T}
    (hm : (runAux cfg d n s).2 ≠ []) : s.now < shiftEndOf cfg := by
  cases n with
  | zero => simp [runAux] at hm
  | succ m =>
    rw [runAux] at hm
    by_cases hc : s.h ≠ [] ∧ s.now < shiftEndOf cfg
    · exact hc.2
    · rw [if_neg hc] at hm
      simp at hm

/-- C2 (counterexample): the claim "no handler ever runs at a time
greater than or equal to shiftEnd" is false: in the one-minute
`cfgNoPause` run with all durations 100, the `done_CF` event scheduled at
time 100 is still popped and executed even though the shift ends at 60
(the loop checks `self.now < self.shift_end` only before the pop). -/
theorem C2_counterexample :
    ¬ (∀ e ∈ runTrace cfgNoPause dur100 30, e.time < shiftEndOf cfgNoPause) := by
  intro hcl
  have hmem : (⟨100, .doneE .CF, none⟩ : Event ℤ) ∈ runTrace cfgNoPause dur100 30 := by
    decide
  have hlt := hcl _ hmem
  have h60 : (shiftEndOf cfgNoPause : ℤ) = 60 := by decide
  rw [h60] at hlt
  exact absurd hlt (by decide)

/-- C2 (amended): when the clock reaches `shiftEnd`, the run stops after
the event that carried it there: every processed event except possibly the
last one has time strictly below `shiftEnd` (equivalently, at most one
handler runs at a time `≥ shiftEnd`, and it is the last; all remaining
queued events are discarded). -/
theorem C2_hard_cutoff (cfg : Config) (d : ℕ → T) (n : ℕ) :
    ∀ e ∈ (runTrace cfg d n).dropLast, e.time < shiftEndOf cfg := by
  have main : ∀ (m : ℕ) (s : St T), ∀ e ∈ ((runAux cfg d m s).2).dropLast,
      e.time < shiftEndOf cfg := by
    intro m
    induction m with
    | zero => intro s e he; simp [runAux] at he
    | succ m ih =>
      intro s e he
      rw [runAux] at he
      by_cases hc : s.h ≠ [] ∧ s.now < shiftEndOf cfg
      · rw [if_pos hc] at he
        cases hpm : popMin s.h with
        | none => rw [hpm] at he; simp at he
        | some p =>
          obtain ⟨e0, rest⟩ := p
          rw [hpm] at he
          dsimp only at he
          cases htr : (runAux cfg d m (dispatch cfg d e0 { s with now := e0.time, h := rest })).2
            with
          | nil => rw [htr] at he; simp at he
          | cons t ts =>
            rw [htr] at he
            rw [show (e0 :: t :: ts).dropLast = e0 :: (t :: ts).dropLast from rfl] at he
            rcases List.mem_cons.1 he with he0 | hrest
            · subst he0
              have hne : (runAux cfg d m
                  (dispatch cfg d e { s with now := e.time, h := rest })).2 ≠ [] := by
                rw [htr]; simp
              have := runAux_trace_ne_nil hne
              rwa [dispatch_now] at this
            · exact ih _ e (htr ▸ hrest)
      · rw [if_neg hc] at he
        simp at he
  exact main n (initSt cfg)

/-- C2 (witness for the amended theorem): in the `cfgNoPause` run the first
processed event, `try_B1` at time 0, is not the last and indeed satisfies
`0 < 60`. -/
theorem C2_hard_cutoff_witness :
    (⟨0, .tryE .B1, none⟩ : Event ℤ).time < shiftEndOf cfgNoPause :=
  C2_hard_cutoff cfgNoPause dur100 30 _ (by decide)

/-- C7: two events scheduled for the identical time are processed in the
fixed total order of the Python tuple comparison — at distinct kinds, the
lexicographic order of the kind-name strings — and never by arrival order:
the popped entry is the minimum of the tuple order and is invariant under
permutation of the queue (the whole run is a function of the configuration
and the duration stream, hence reproducible). -/
theorem C7_deterministic_tie_break :
    (∀ (l : List (Event T)) (e : Event T) (rest : List (Event T)),
        popMin l = some (e, rest) →
          e ∈ l ∧ (e :: rest).Perm l ∧ ∀ x ∈ l, evLt x e = false) ∧
    (∀ l l' : List (Event T), l.Perm l' →
        (popMin l).map Prod.fst = (popMin l').map Prod.fst) ∧
    (∀ a b : Event T, a.time = b.time →
        charListLtB (typStr a.typ).data (typStr b.typ).data = true → evLt a b = true) := by
  refine ⟨?_, ?_, ?_⟩
  · intro l e rest h
    exact ⟨popMin_mem h, popMin_perm h, popMin_min h⟩
  · intro l l' hp
    exact popMin_fst_perm hp
  · intro a b ht hk
    unfold evLt PackagingSim.lexB
    simp [evKey, timeLtB, ht, hk]

/-- C7 (witness): with `try_PAL` and `done_CF` both queued at time 5, the
pop is the same whichever arrived first, and `done_CF` sorts strictly
before `try_PAL` by its kind string. -/
theorem C7_deterministic_tie_break_witness :
    (popMin [(⟨5, .tryE .PAL, none⟩ : Event ℤ), ⟨5, .doneE .CF, none⟩]).map Prod.fst
        = (popMin [(⟨5, .doneE .CF, none⟩ : Event ℤ), ⟨5, .tryE .PAL, none⟩]).map Prod.fst
      ∧ evLt (⟨5, .doneE .CF, none⟩ : Event ℤ) ⟨5, .tryE .PAL, none⟩ = true :=
  ⟨C7_deterministic_tie_break.2.1 _ _ (by decide),
   C7_deterministic_tie_break.2.2 _ _ rfl (by decide)⟩

/-- C8: if any `try_*` guard fails — production window closed, all servers
busy, input buffer empty, or output buffer full — the handler returns with
the state unchanged: every buffer level, busy count and the event queue are
exactly as before, and in particular no retry is self-scheduled. -/
theorem C8_try_guard_frame (cfg : Config) (d : ℕ → T) (X : Station) (s : St T)
    (hguard : can_run cfg s = false ∨ servers X ≤ s.busy X ∨ inBlockedB s X = true ∨
      outBlockedB cfg s X = true) :
    tryStation cfg d X s = s := by
  rcases tryStation_cases cfg d X s with h | ⟨h1, h2, h3, h4, _⟩
  · exact h
  · rcases hguard with hg | hg | hg | hg
    · rw [h1] at hg; exact absurd hg (by simp)
    · exact absurd hg (not_le.2 h2)
    · rw [h3] at hg; exact absurd hg (by simp)
    · rw [h4] at hg; exact absurd hg (by simp)

/-- C8 (witness): with the single CaseFormer server busy, `try_CF` is a
no-op. -/
theorem C8_try_guard_frame_witness :
    tryStation cfgNoPause dur100 .CF stBusyCF = stBusyCF :=
  C8_try_guard_frame cfgNoPause dur100 .CF stBusyCF (Or.inr (Or.inl (by decide)))

/-- C6 (counterexample): scheduling an event with a negative time does not
fail — no `InvalidTimeError` exists anywhere in the code — and the event is
inserted into the queue: pushing a `try_CF` at time `-1` puts it in the
heap. -/
theorem C6_counterexample :
    ¬ (∀ (l : List (Event ℤ)) (e : Event ℤ), e.time < 0 → e ∉ heappush l e) := by
  intro hcl
  exact hcl [] ⟨-1, .tryE .CF, none⟩ (by decide) (by decide)

/-- C6 (amended): `schedule` (a bare `heapq.heappush`) performs no time
validation: any event — negative-time ones included — is inserted into the
queue, which grows by exactly one entry (NaN is not representable in the
model's time type; there is no failure path). -/
theorem C6_no_validation (l : List (Event T)) (e : Event T) :
    e ∈ heappush l e ∧ (heappush l e).length = l.length + 1 := by
  constructor <;> simp [heappush]

theorem in_window_cutBreak {t bs be : T} {ivs : List (T × T)}
    (h : in_window t (cutBreak ivs bs be) = true) :
    in_window t ivs = true ∧ ¬(bs ≤ t ∧ t < be) := by
  induction ivs with
  | nil => simp [cutBreak, in_window] at h
  | cons ab ivs ih =>
    rw [cutBreak, List.flatMap_cons] at h
    rw [in_window, List.any_append] at h
    rw [← cutBreak] at h
    rw [Bool.or_eq_true] at h
    rcases h with hl | hr
    swap
    · obtain ⟨hin, hout⟩ := ih hr
      refine ⟨?_, hout⟩
      rw [in_window, List.any_cons]
      rw [in_window] at hin
      simp [hin]
    · by_cases hcond : be ≤ ab.1 ∨ bs ≥ ab.2
      · rw [if_pos hcond] at hl
        simp only [List.any_cons, List.any_nil, Bool.or_false, Bool.and_eq_true,
          decide_eq_true_eq] at hl
        obtain ⟨h1, h2⟩ := hl
        constructor
        · rw [in_window, List.any_cons]
          simp [h1, h2]
        · rintro ⟨hbs, hbe⟩
          rcases hcond with hc | hc
          · exact absurd hbe (not_lt.2 (hc.trans h1))
          · exact absurd hbs (not_le.2 (lt_of_lt_of_le h2 hc))
      · rw [if_neg hcond] at hl
        push_neg at hcond
        obtain ⟨hc1, hc2⟩ := hcond
        rw [List.any_append] at hl
        have habt : (ab.1 ≤ t ∧ t < ab.2) → in_window t (ab :: ivs) = true := by
          rintro ⟨u1, u2⟩
          rw [in_window, List.any_cons]
          simp [u1, u2]
        rw [Bool.or_eq_true] at hl
        rcases hl with hp | hp
        · by_cases hfst : ab.1 < bs
          · rw [if_pos hfst] at hp
            simp only [List.any_cons, List.any_nil, Bool.or_false, Bool.and_eq_true,
              decide_eq_true_eq] at hp
            obtain ⟨u1, u2⟩ := hp
            refine ⟨habt ⟨u1, u2.trans (lt_of_not_le (fun hh => hc2.not_le hh))⟩, ?_⟩
            · rintro ⟨hbs, _⟩
              exact absurd hbs (not_le.2 u2)
          · rw [if_neg hfst] at hp
            simp at hp
        · by_cases hsnd : be < ab.2
          · rw [if_pos hsnd] at hp
            simp only [List.any_cons, List.any_nil, Bool.or_false, Bool.and_eq_true,
              decide_eq_true_eq] at hp
            obtain ⟨u1, u2⟩ := hp
            refine ⟨habt ⟨le_of_lt (lt_of_lt_of_le hc1 u1), u2⟩, ?_⟩
            · rintro ⟨_, hbe⟩
              exact absurd hbe (not_lt.2 u1)
          · rw [if_neg hsnd] at hp
            simp at hp

theorem in_window_foldl_cut {t : T} :
    ∀ (l : List (ℤ × ℤ × ℤ × ℤ)) (acc : List (T × T)),
      in_window t (l.foldl
          (fun acc b => cutBreak acc (to_sec b.1 b.2.1) (to_sec b.2.2.1 b.2.2.2)) acc) = true →
      in_window t acc = true := by
  intro l
  induction l with
  | nil => intro acc h; simpa using h
  | cons b l ih =>
    intro acc h
    rw [List.foldl_cons] at h
    exact (in_window_cutBreak (ih _ h)).1

theorem break_not_in_window {cfg : Config} {t : T} {b : ℤ × ℤ × ℤ × ℤ}
    (hb : b ∈ cfg.breaks) (h1 : (to_sec b.1 b.2.1 : T) ≤ t)
    (h2 : t < (to_sec b.2.2.1 b.2.2.2 : T)) :
    in_window t (winsOf (T := T) cfg) = false := by
  rw [Bool.eq_false_iff]
  intro hwin
  obtain ⟨l1, l2, hsplit⟩ := List.append_of_mem hb
  rw [winsOf, windows_from_shift] at hwin
  dsimp only at hwin
  rw [hsplit, List.foldl_append, List.foldl_cons] at hwin
  have := in_window_foldl_cut l2 _ hwin
  exact (in_window_cutBreak this).2 ⟨h1, h2⟩

/-- C5 (counterexample): the clause "Try events due inside the pause …
simply no-op when popped" fails for DOWNTIME pauses (downtimes are not
subtracted from the production windows): in `cfgDowntime` the 20th
processed event is `try_B2` at time 90, strictly inside the downtime
`(60, 120)`, and executing it changes the state — the B2 server count goes
from 0 to 1. -/
theorem C5_counterexample :
    ¬ (∀ (n : ℕ) (X : Station) (t : ℤ) (b : ℤ × ℤ × ℤ × ℤ),
        b ∈ cfgDowntime.downtimes →
        (runTrace cfgDowntime dur30 (n + 1)).getLast? = some ⟨t, .tryE X, none⟩ →
        to_sec b.1 b.2.1 < t → t < to_sec b.2.2.1 b.2.2.2 →
        (runSim cfgDowntime dur30 (n + 1)).busy X = (runSim cfgDowntime dur30 n).busy X) := by
  intro hcl
  have := hcl 19 .B2 90 (0, 1, 0, 2) (by decide) (by decide) (by decide) (by decide)
  exact absurd this (by decide)

/-- C5 (amended): on a PauseStart for `(ps, pe)` the queue is re-formed by
applying exactly the per-event retiming to every entry (as multisets,
`new = map (shiftFn ps pe) old`); the retiming adds exactly `pe - ps` to a
`done_*` event strictly inside `(ps, pe)` and leaves every other event —
in particular every `Try` event — untouched; and a `Try` popped while the
clock is inside a BREAK interval no-ops (breaks are subtracted from the
production windows).  During a DOWNTIME the window may still be open and a
popped `Try` may start work (see the counterexample). -/
theorem C5_pause_retiming (cfg : Config) (d : ℕ → T) :
    (∀ (label : String) (ps pe : T) (s : St T),
        Multiset.ofList (mark_incomplete cfg label ps pe s).h
          = Multiset.ofList (s.h.map (shiftFn ps pe))) ∧
    (∀ (ps pe : T) (e : Event T),
        (ps < e.time ∧ e.time < pe ∧ isDoneTyp e.typ = true →
          (shiftFn ps pe e).time = e.time + (pe - ps) ∧ (shiftFn ps pe e).typ = e.typ ∧
            (shiftFn ps pe e).payload = e.payload) ∧
        (¬(ps < e.time ∧ e.time < pe ∧ isDoneTyp e.typ = true) → shiftFn ps pe e = e)) ∧
    (∀ (b : ℤ × ℤ × ℤ × ℤ) (s : St T) (X : Station), b ∈ cfg.breaks →
        (to_sec b.1 b.2.1 : T) ≤ s.now → s.now < (to_sec b.2.2.1 b.2.2.2 : T) →
        tryStation cfg d X s = s) := by
  refine ⟨?_, ?_, ?_⟩
  · intro label ps pe s
    rw [mark_incomplete_h]
    exact Multiset.coe_eq_coe.2 (drainAll_perm (shiftFn ps pe) s.h)
  · intro ps pe e
    constructor
    · intro hin
      rw [shiftFn, if_pos hin]
      exact ⟨rfl, rfl, rfl⟩
    · intro hout
      rw [shiftFn, if_neg hout]
  · intro b s X hb hb1 hb2
    have hwin : can_run cfg s = false := break_not_in_window hb hb1 hb2
    rcases tryStation_cases cfg d X s with h | ⟨h1, _, _, _, _⟩
    · exact h
    · rw [h1] at hwin
      exact absurd hwin (by simp)

/-- C5 (witness): retiming `stRetime`'s queue for the pause `(60, 120)`
shifts the inside `done_SEP` from 70 to 130, fixes the `try_CF` at 70, and
a `try_CF` popped at 90 during the break of `cfgBreak` is a no-op. -/
theorem C5_pause_retiming_witness :
    Multiset.ofList (mark_incomplete cfgBreak "BREAK" (60 : ℤ) 120 stRetime).h
        = Multiset.ofList (stRetime.h.map (shiftFn 60 120))
      ∧ (shiftFn (60 : ℤ) 120 (⟨70, .doneE .SEP, none⟩ : Event ℤ)).time = 70 + (120 - 60)
      ∧ shiftFn (60 : ℤ) 120 (⟨70, .tryE .CF, none⟩ : Event ℤ) = ⟨70, .tryE .CF, none⟩
      ∧ tryStation cfgBreak dur30 .CF stAt90 = stAt90 :=
  ⟨(C5_pause_retiming cfgBreak dur30).1 "BREAK" 60 120 stRetime,
   (((C5_pause_retiming cfgBreak dur30).2.1 60 120 _).1 (by decide)).1,
   ((C5_pause_retiming cfgBreak dur30).2.1 60 120 _).2 (by decide),
   (C5_pause_retiming cfgBreak dur30).2.2 (0, 1, 0, 2) stAt90 .CF (by decide) (by decide)
     (by decide)⟩

theorem evLt_of_time_lt {a b : Event T} (h : a.time < b.time) : evLt a b = true := by
  unfold evLt PackagingSim.lexB
  simp [evKey, timeLtB, h]

theorem popMin_time_le {s : St T} {e : Event T} {rest : List (Event T)}
    (hpm : popMin s.h = some (e, rest)) : ∀ x ∈ s.h, e.time ≤ x.time := by
  intro x hx
  by_contra hlt
  rw [not_le] at hlt
  have := popMin_min hpm x hx
  rw [evLt_of_time_lt hlt] at this
  simp at this

theorem mem_rest_of_popMin {s : St T} {e : Event T} {rest : List (Event T)}
    (hpm : popMin s.h = some (e, rest)) : ∀ x ∈ rest, x ∈ s.h := by
  intro x hx
  exact (popMin_perm hpm).mem_iff.1 (List.mem_cons_of_mem e hx)

theorem shiftFn_time_le (ps pe : T) (e : Event T) : e.time ≤ (shiftFn ps pe e).time := by
  unfold shiftFn
  by_cases hcond : ps < e.time ∧ e.time < pe ∧ isDoneTyp e.typ = true
  · rw [if_pos hcond]
    have : ps < pe := hcond.1.trans hcond.2.1
    dsimp only
    linarith
  · rw [if_neg hcond]

theorem shiftFn_typ (ps pe : T) (e : Event T) : (shiftFn ps pe e).typ = e.typ := by
  unfold shiftFn
  split <;> rfl

theorem shiftFn_payload (ps pe : T) (e : Event T) :
    (shiftFn ps pe e).payload = e.payload := by
  unfold shiftFn
  split <;> rfl

theorem shiftFn_pause_end (ps pe : T) (e : Event T) (he : e.typ = .pause_end) :
    shiftFn ps pe e = e := by
  unfold shiftFn
  rw [if_neg]
  rintro ⟨-, -, hdone⟩
  rw [he] at hdone
  simp [isDoneTyp] at hdone

theorem mem_notifications {X : Station} {t : T} {x : Event T} (hx : x ∈ notifications X t) :
    x.time = t ∧ ∃ Y, x.typ = .tryE Y := by
  simp only [notifications, List.mem_append, List.mem_singleton, List.mem_map,
    Option.mem_toList, Option.mem_def] at hx
  rcases hx with (rfl | ⟨Y, -, rfl⟩) | ⟨Y, -, rfl⟩
  · exact ⟨rfl, X, rfl⟩
  · exact ⟨rfl, Y, rfl⟩
  · exact ⟨rfl, Y, rfl⟩

/-- After popping the minimum `e` and running its handler, every queued
event is scheduled no earlier than `e.time`, and `pause_end` payloads stay
well-formed (given nonnegative durations). -/
theorem step_pending_ge (hd : ∀ k, 0 ≤ d k) {s : St T} {e : Event T} {rest : List (Event T)}
    (hpm : popMin s.h = some (e, rest)) (hwf : PauseEndWf s) :
    (∀ x ∈ (dispatch cfg d e { s with now := e.time, h := rest }).h, e.time ≤ x.time)
      ∧ PauseEndWf (dispatch cfg d e { s with now := e.time, h := rest }) := by
  have hrest : ∀ x ∈ rest, e.time ≤ x.time := fun x hx =>
    popMin_time_le hpm x (mem_rest_of_popMin hpm x hx)
  have hrestwf : ∀ x ∈ rest, x.typ = .pause_end →
      ∃ (l : String) (q1 : T), x.payload = some (l, q1, x.time) := fun x hx =>
    hwf x (mem_rest_of_popMin hpm x hx)
  set s0 : St T := { s with now := e.time, h := rest } with hs0
  cases hk : e.typ with
  | tryE X =>
    rw [dispatch, hk]
    dsimp only
    rcases tryStation_cases cfg d X s0 with heq | ⟨_, _, _, _, heq⟩
    · rw [heq]
      exact ⟨hrest, hrestwf⟩
    · rw [heq]
      constructor
      · intro x hx
        rcases List.mem_cons.1 hx with hx0 | hx1
        · subst hx0
          dsimp only
          have := hd s0.rix
          linarith [hd s0.rix]
        · exact hrest x hx1
      · intro x hx hxe
        rcases List.mem_cons.1 hx with hx0 | hx1
        · subst hx0
          simp at hxe
        · exact hrestwf x hx1 hxe
  | doneE X =>
    rw [dispatch, hk]
    dsimp only
    rw [PauseEndWf]
    rw [doneStation_h]
    constructor
    · intro x hx
      rcases List.mem_append.1 hx with hx0 | hx1
      · exact le_of_eq (mem_notifications hx0).1.symm
      · exact hrest x hx1
    · intro x hx hxe
      rcases List.mem_append.1 hx with hx0 | hx1
      · obtain ⟨-, Y, hY⟩ := mem_notifications hx0
        rw [hY] at hxe
        simp at hxe
      · exact hrestwf x hx1 hxe
  | pause_start =>
    rw [dispatch, hk]
    dsimp only
    cases hp : e.payload with
    | none => exact ⟨hrest, hrestwf⟩
    | some q =>
      obtain ⟨lab, ps, pe⟩ := q
      dsimp only
      rw [PauseEndWf, mark_incomplete_h]
      have hmem : ∀ x ∈ drainAll (shiftFn ps pe) s0.h, ∃ y ∈ s0.h, x = shiftFn ps pe y := by
        intro x hx
        have := (drainAll_perm (shiftFn ps pe) s0.h).mem_iff.1 hx
        simpa [eq_comm] using List.mem_map.1 this
      constructor
      · intro x hx
        obtain ⟨y, hy, hxy⟩ := hmem x hx
        subst hxy
        exact (hrest y hy).trans (shiftFn_time_le ps pe y)
      · intro x hx hxe
        obtain ⟨y, hy, hxy⟩ := hmem x hx
        subst hxy
        rw [shiftFn_typ] at hxe
        rw [shiftFn_pause_end ps pe y hxe]
        exact hrestwf y hy hxe
  | pause_end =>
    rw [dispatch, hk]
    dsimp only
    cases hp : e.payload with
    | none => exact ⟨hrest, hrestwf⟩
    | some q =>
      obtain ⟨lab, q1, q2⟩ := q
      have hq2 : q2 = e.time := by
        obtain ⟨l', q1', hpay⟩ := hwf e (popMin_mem hpm) hk
        rw [hp] at hpay
        simp only [Option.some.injEq, Prod.mk.injEq] at hpay
        exact hpay.2.2
      dsimp only
      rw [PauseEndWf, end_pause_h]
      constructor
      · intro x hx
        rcases List.mem_append.1 hx with hx0 | hx1
        · simp only [List.mem_map] at hx0
          obtain ⟨Y, _, hY⟩ := hx0
          subst hY
          rw [hq2]
        · exact hrest x hx1
      · intro x hx hxe
        rcases List.mem_append.1 hx with hx0 | hx1
        · exfalso
          simp only [List.mem_map] at hx0
          obtain ⟨Y, _, hY⟩ := hx0
          subst hY
          simp at hxe
        · exact hrestwf x hx1 hxe

theorem runAux_trace_head_mem {m : ℕ} {s : St T} {y : Event T}
    (hy : (runAux cfg d m s).2.head? = some y) : y ∈ s.h := by
  cases m with
  | zero => simp [runAux] at hy
  | succ m =>
    rw [runAux] at hy
    by_cases hc : s.h ≠ [] ∧ s.now < shiftEndOf cfg
    · rw [if_pos hc] at hy
      cases hpm : popMin s.h with
      | none => rw [hpm] at hy; simp at hy
      | some p =>
        obtain ⟨e, rest⟩ := p
        rw [hpm] at hy
        simp only [List.head?_cons, Option.some.injEq] at hy
        subst hy
        exact popMin_mem hpm
    · rw [if_neg hc] at hy
      simp at hy

theorem initSt_pauseEndWf (cfg : Config) : PauseEndWf (initSt (T := T) cfg) := by
  intro e he hke
  rw [initSt] at he
  dsimp only at he
  rw [initEvents] at he
  rcases List.mem_append.1 he with h0 | h1
  · rcases List.mem_append.1 h0 with ha | hb
    · simp only [List.mem_map] at ha
      obtain ⟨X, -, hX⟩ := ha
      subst hX
      simp at hke
    · simp only [List.mem_flatMap, pausePair, List.mem_cons, List.mem_singleton] at hb
      obtain ⟨b, -, hb'⟩ := hb
      rcases hb' with rfl | rfl | hfalse
      · simp at hke
      · exact ⟨"BREAK", to_sec b.1 b.2.1, rfl⟩
      · simp at hfalse
  · simp only [List.mem_flatMap, pausePair, List.mem_cons, List.mem_singleton] at h1
    obtain ⟨b, -, hb'⟩ := h1
    rcases hb' with rfl | rfl | hfalse
    · simp at hke
    · exact ⟨"DOWNTIME", to_sec b.1 b.2.1, rfl⟩
    · simp at hfalse

/-- C9: with every drawn duration nonnegative, the simulation clock is
monotonically non-decreasing across processed events (each processed
event's time is at least the previous one's), and the pause retiming only
ever moves a `done_*` event's time forward — strictly forward when it is
actually shifted — never earlier. -/
theorem C9_clock_monotone (cfg : Config) (d : ℕ → T) (hd : ∀ k, 0 ≤ d k) (n : ℕ) :
    List.Chain' (fun a b : Event T => a.time ≤ b.time) (runTrace cfg d n)
      ∧ (∀ (ps pe : T) (e : Event T),
          e.time ≤ (shiftFn ps pe e).time
            ∧ (ps < e.time ∧ e.time < pe ∧ isDoneTyp e.typ = true →
                e.time < (shiftFn ps pe e).time)) := by
  constructor
  · have main : ∀ (m : ℕ) (s : St T), PauseEndWf s →
        List.Chain' (fun a b : Event T => a.time ≤ b.time) (runAux cfg d m s).2 := by
      intro m
      induction m with
      | zero => intro s _; simp [runAux]
      | succ m ih =>
        intro s hwf
        rw [runAux]
        by_cases hc : s.h ≠ [] ∧ s.now < shiftEndOf cfg
        · rw [if_pos hc]
          cases hpm : popMin s.h with
          | none => simp
          | some p =>
            obtain ⟨e, rest⟩ := p
            dsimp only
            obtain ⟨hge, hwf'⟩ := step_pending_ge hd hpm hwf
            rw [List.chain'_cons']
            refine ⟨?_, ih _ hwf'⟩
            intro y hy
            exact hge y (runAux_trace_head_mem hy)
        · rw [if_neg hc]
          simp
    exact main n (initSt cfg) (initSt_pauseEndWf cfg)
  · intro ps pe e
    refine ⟨shiftFn_time_le ps pe e, ?_⟩
    intro hcond
    rw [shiftFn, if_pos hcond]
    have : ps < pe := hcond.1.trans hcond.2.1
    dsimp only
    linarith

/-- C9 (witness): the trace of the `cfgNoPause` run with constant duration
100 has non-decreasing times. -/
theorem C9_clock_monotone_witness :
    List.Chain' (fun a b : Event ℤ => a.time ≤ b.time) (runTrace cfgNoPause dur100 30) :=
  (C9_clock_monotone cfgNoPause dur100 (fun _ => by norm_num [dur100]) 30).1

theorem readerOf_ne_CF : ∀ i : Fin 7, readerOf i ≠ .CF := by decide

theorem writerOf_ne_PAL : ∀ i : Fin 7, writerOf i ≠ .PAL := by decide

theorem in_ne_out : ∀ (X : Station) (i : Fin 7),
    ¬(inIdx X = some i ∧ outIdx X = some i) := by decide

theorem outIdx_of_writer {i : Fin 7} {X : Station} (h : writerOf i = X) :
    outIdx X = some i := by
  rw [← h]
  exact outIdx_writer i

theorem inIdx_of_reader {i : Fin 7} {X : Station} (h : readerOf i = X) :
    inIdx X = some i := by
  rw [← h]
  exact inIdx_reader i

theorem countDone_perm {X : Station} {l l' : List (Event T)} (h : l.Perm l') :
    countDone X l = countDone X l' := h.countP_eq _

theorem countDone_cons (X : Station) (e : Event T) (l : List (Event T)) :
    countDone X (e :: l) = countDone X l + (if e.typ = .doneE X then 1 else 0) := by
  simp [countDone, List.countP_cons]

theorem countDone_append (X : Station) (l1 l2 : List (Event T)) :
    countDone X (l1 ++ l2) = countDone X l1 + countDone X l2 := by
  simp [countDone, List.countP_append]

theorem countDone_notifications (X Y : Station) (t : T) :
    countDone X (notifications Y t) = 0 := by
  rw [countDone, List.countP_eq_zero]
  intro a ha
  obtain ⟨-, Z, hZ⟩ := mem_notifications ha
  simp [hZ]

theorem countDone_tries (X : Station) (l : List Station) (t : T) :
    countDone X (l.map fun Y => (⟨t, .tryE Y, none⟩ : Event T)) = 0 := by
  rw [countDone, List.countP_eq_zero]
  intro a ha
  simp only [List.mem_map] at ha
  obtain ⟨Y, -, hY⟩ := ha
  subst hY
  simp

theorem countDone_drain (X : Station) (ps pe : T) (l : List (Event T)) :
    countDone X (drainAll (shiftFn ps pe) l) = countDone X l := by
  rw [countDone_perm (drainAll_perm (shiftFn ps pe) l)]
  rw [countDone, List.countP_map]
  rw [countDone]
  congr 1
  funext a
  simp [Function.comp, shiftFn_typ]

theorem countDone_pop {s : St T} {e : Event T} {rest : List (Event T)}
    (hpm : popMin s.h = some (e, rest)) (X : Station) :
    countDone X s.h = countDone X rest + (if e.typ = .doneE X then 1 else 0) := by
  rw [← countDone_perm (popMin_perm hpm), countDone_cons]

theorem countDone_pos_of_mem {X : Station} {e : Event T} {l : List (Event T)}
    (hm : e ∈ l) (ht : e.typ = .doneE X) : 1 ≤ countDone X l := by
  rw [countDone]
  have : 0 < l.countP fun e => decide (e.typ = .doneE X) := by
    rw [List.countP_pos]
    exact ⟨e, hm, by simp [ht]⟩
  omega

theorem of_inBlockedB_false {s : St T} {X : Station} {i : Fin 7}
    (h : inBlockedB s X = false) (hi : inIdx X = some i) : 0 < s.buf i := by
  rw [inBlockedB, hi] at h
  simp only [decide_eq_false_iff_not, not_le] at h
  exact h

theorem of_outBlockedB_false {s : St T} {X : Station} {j : Fin 7}
    (h : outBlockedB cfg s X = false) (hj : outIdx X = some j) :
    s.buf j < cfg.buffers j := by
  rw [outBlockedB, hj] at h
  simp only [decide_eq_false_iff_not, not_le] at h
  exact h

theorem doneStation_buf_updates (X : Station) (s : St T) :
    (doneStation cfg X s).buf =
      (match outIdx X with
        | some j => fun (b : Fin 7 → ℤ) => Function.update b j (b j + 1)
        | none => id)
      ((match inIdx X with
        | some i => fun (b : Fin 7 → ℤ) => Function.update b i (b i - 1)
        | none => id) s.buf) := by
  cases X <;>
    first
      | rfl
      | (unfold doneStation
         dsimp only [inIdx, outIdx]
         rw [if_pos rfl, palTrack_buf]
         rfl)

theorem doneStation_buf (X : Station) (s : St T) (i : Fin 7) :
    (doneStation cfg X s).buf i
      = s.buf i + (if outIdx X = some i then 1 else 0)
        - (if inIdx X = some i then 1 else 0) := by
  rw [doneStation_buf_updates]
  rcases hin : inIdx X with _ | i0 <;> rcases hout : outIdx X with _ | j0 <;>
    simp only [id, Function.update_apply, Option.some.injEq, reduceCtorEq, if_false]
  · omega
  · split_ifs <;> subst_vars <;> first | omega | simp_all
  · split_ifs <;> subst_vars <;> first | omega | simp_all
  · split_ifs <;> subst_vars <;> first | omega | simp_all

/-- Preservation of `InvC4` by one step of the run loop. -/
theorem invC4_step (hcap : ∀ i, 0 ≤ cfg.buffers i) {s : St T} {e : Event T}
    {rest : List (Event T)} (hpm : popMin s.h = some (e, rest)) (hinv : InvC4 cfg s) :
    InvC4 cfg (dispatch cfg d e { s with now := e.time, h := rest }) := by
  obtain ⟨h1, h2, h3, h4, h5⟩ := hinv
  have hbusy_nonneg : ∀ X, 0 ≤ s.busy X := by
    intro X
    rw [h1 X]
    exact Int.ofNat_nonneg _
  set s0 : St T := { s with now := e.time, h := rest } with hs0
  cases hk : e.typ with
  | tryE X0 =>
    rw [dispatch, hk]
    dsimp only
    have hcnt : ∀ X, countDone X rest = countDone X s.h := by
      intro X
      have := countDone_pop hpm X
      rw [hk] at this
      simp at this
      omega
    rcases tryStation_cases cfg d X0 s0 with heq | ⟨hg1, hg2, hg3, hg4, heq⟩
    · rw [heq]
      exact ⟨fun X => (h1 X).trans (by rw [hcnt]), h2, h3, h4, h5⟩
    · rw [heq]
      have hb : s0.busy = s.busy := rfl
      have hh0 : s0.h = rest := rfl
      have hX0zero : s.busy X0 = 0 := by
        have hlt1 : s.busy X0 < 1 := by simpa [servers] using hg2
        have := hbusy_nonneg X0
        omega
      refine ⟨?_, ?_, h3, ?_, ?_⟩
      · intro X
        dsimp only
        rw [heappush, countDone_cons]
        dsimp only
        by_cases hXX : X = X0
        · rw [hXX, Function.update_same, if_pos rfl, h1 X0, ← hcnt X0]
          push_cast
          ring
        · rw [Function.update_noteq hXX,
            if_neg (show ¬(EKind.doneE X0 = EKind.doneE X) by
              intro hc; injection hc with h'; exact hXX h'.symm),
            h1 X, ← hcnt X]
          simp
      · intro X
        dsimp only
        by_cases hXX : X = X0
        · rw [hXX, Function.update_same, hX0zero]
          omega
        · rw [Function.update_noteq hXX]
          exact h2 X
      · intro i
        dsimp only
        rw [hb]
        by_cases hw : writerOf i = X0
        · rw [hw, Function.update_same, hX0zero]
          have := of_outBlockedB_false hg4 (outIdx_of_writer hw)
          have : s.buf i < cfg.buffers i := this
          omega
        · rw [Function.update_noteq hw]
          exact h4 i
      · intro i
        dsimp only
        rw [hb]
        by_cases hr : readerOf i = X0
        · rw [hr, Function.update_same, hX0zero]
          have := of_inBlockedB_false hg3 (inIdx_of_reader hr)
          have : (0 : ℤ) < s.buf i := this
          omega
        · rw [Function.update_noteq hr]
          exact h5 i
  | doneE X0 =>
    rw [dispatch, hk]
    dsimp only
    have hcnt : ∀ X, countDone X s.h
        = countDone X rest + (if X = X0 then 1 else 0) := by
      intro X
      have := countDone_pop hpm X
      rw [hk] at this
      simpa [eq_comm] using this
    have hX0pos : 1 ≤ s.busy X0 := by
      rw [h1 X0]
      exact_mod_cast countDone_pos_of_mem (popMin_mem hpm) hk
    have hbusy := @doneStation_busy T _ _ cfg X0 s0
    have hh := @doneStation_h T _ _ cfg X0 s0
    have hh0 : s0.h = rest := rfl
    have hb : s0.busy = s.busy := rfl
    have hbf : s0.buf = s.buf := rfl
    rw [hb] at hbusy
    refine ⟨?_, ?_, ?_, ?_, ?_⟩
    · intro X
      rw [hbusy, hh]
      rw [countDone_append, countDone_notifications, hh0]
      by_cases hXX : X = X0
      · subst hXX
        rw [Function.update_same]
        have := hcnt X
        simp at this
        rw [h1 X]
        omega
      · rw [Function.update_noteq hXX]
        have := hcnt X
        simp [hXX] at this
        rw [h1 X]
        omega
    · intro X
      rw [hbusy]
      by_cases hXX : X = X0
      · subst hXX
        rw [Function.update_same]
        have := h2 X
        omega
      · rw [Function.update_noteq hXX]
        exact h2 X
    · intro i
      rw [doneStation_buf, hbf]
      by_cases hin : inIdx X0 = some i
      · have hreader : readerOf i = X0 := reader_of_inIdx X0 i hin
        have hout : ¬ outIdx X0 = some i := fun hc => in_ne_out X0 i ⟨hin, hc⟩
        simp only [hin, hout, if_true, if_false, reduceIte]
        have := h5 i
        rw [hreader] at this
        omega
      · simp only [hin, if_false, reduceIte]
        have := h3 i
        split_ifs <;> omega
    · intro i
      rw [doneStation_buf, hbf, hbusy]
      by_cases hw : writerOf i = X0
      · have hout : outIdx X0 = some i := outIdx_of_writer hw
        have hin : ¬ inIdx X0 = some i := fun hc => in_ne_out X0 i ⟨hc, hout⟩
        rw [hw, Function.update_same]
        simp only [hout, hin, if_true, if_false, reduceIte]
        have := h4 i
        rw [hw] at this
        omega
      · rw [Function.update_noteq hw]
        have hout : ¬ outIdx X0 = some i := fun hc => hw (writer_of_outIdx X0 i hc)
        simp only [hout, if_false, reduceIte]
        have := h4 i
        split_ifs <;> omega
    · intro i
      rw [doneStation_buf, hbf, hbusy]
      by_cases hr : readerOf i = X0
      · have hin : inIdx X0 = some i := inIdx_of_reader hr
        have hout : ¬ outIdx X0 = some i := fun hc => in_ne_out X0 i ⟨hin, hc⟩
        rw [hr, Function.update_same]
        simp only [hin, hout, if_true, if_false, reduceIte]
        have := h5 i
        rw [hr] at this
        omega
      · rw [Function.update_noteq hr]
        have hin : ¬ inIdx X0 = some i := fun hc => hr (reader_of_inIdx X0 i hc)
        simp only [hin, if_false, reduceIte]
        have := h5 i
        split_ifs <;> omega
  | pause_start =>
    rw [dispatch, hk]
    dsimp only
    have hcnt : ∀ X, countDone X rest = countDone X s.h := by
      intro X
      have := countDone_pop hpm X
      rw [hk] at this
      simp at this
      omega
    cases hp : e.payload with
    | none => exact ⟨fun X => (h1 X).trans (by rw [hcnt]), h2, h3, h4, h5⟩
    | some q =>
      obtain ⟨lab, ps, pe⟩ := q
      dsimp only
      refine ⟨?_, ?_, ?_, ?_, ?_⟩
      · intro X
        rw [mark_incomplete_busy, mark_incomplete_h]
        rw [countDone_drain]
        exact (h1 X).trans (by rw [hcnt])
      · intro X
        rw [mark_incomplete_busy]
        exact h2 X
      · intro i
        rw [mark_incomplete_buf]
        exact h3 i
      · intro i
        rw [mark_incomplete_buf, mark_incomplete_busy]
        exact h4 i
      · intro i
        rw [mark_incomplete_buf, mark_incomplete_busy]
        exact h5 i
  | pause_end =>
    rw [dispatch, hk]
    dsimp only
    have hcnt : ∀ X, countDone X rest = countDone X s.h := by
      intro X
      have := countDone_pop hpm X
      rw [hk] at this
      simp at this
      omega
    cases hp : e.payload with
    | none => exact ⟨fun X => (h1 X).trans (by rw [hcnt]), h2, h3, h4, h5⟩
    | some q =>
      obtain ⟨lab, q1, q2⟩ := q
      dsimp only
      refine ⟨?_, h2, h3, h4, h5⟩
      intro X
      rw [end_pause_h]
      rw [countDone_append, countDone_tries]
      rw [Nat.zero_add]
      exact (h1 X).trans (by rw [hcnt])

theorem initSt_countDone (cfg : Config) (X : Station) :
    countDone X ((initSt (T := T) cfg).h) = 0 := by
  rw [countDone, List.countP_eq_zero]
  intro a ha
  rw [initSt] at ha
  dsimp only at ha
  rw [initEvents] at ha
  rcases List.mem_append.1 ha with h0 | h1
  · rcases List.mem_append.1 h0 with ha' | hb
    · simp only [List.mem_map] at ha'
      obtain ⟨Y, -, hY⟩ := ha'
      subst hY
      simp
    · simp only [List.mem_flatMap, pausePair, List.mem_cons, List.mem_singleton] at hb
      obtain ⟨b, -, hb'⟩ := hb
      rcases hb' with rfl | rfl | hfalse
      · simp
      · simp
      · simp at hfalse
  · simp only [List.mem_flatMap, pausePair, List.mem_cons, List.mem_singleton] at h1
    obtain ⟨b, -, hb'⟩ := h1
    rcases hb' with rfl | rfl | hfalse
    · simp
    · simp
    · simp at hfalse

theorem initSt_invC4 (cfg : Config) (hcap : ∀ i, 0 ≤ cfg.buffers i) :
    InvC4 cfg (initSt (T := T) cfg) := by
  refine ⟨?_, ?_, ?_, ?_, ?_⟩
  · intro X
    rw [initSt_countDone]
    rfl
  · intro X
    norm_num [initSt]
  · intro i
    norm_num [initSt]
  · intro i
    have := hcap i
    simp only [initSt]
    omega
  · intro i
    norm_num [initSt]

/-- C4: in every reachable state of a run (any fuel, from the initial
state), every buffer level lies between 0 and its configured capacity, and
every station's busy count lies between 0 and its server count (1). -/
theorem C4_bounds (cfg : Config) (d : ℕ → T) (hcap : ∀ i, 0 ≤ cfg.buffers i) (n : ℕ) :
    (∀ i, 0 ≤ (runSim cfg d n).buf i ∧ (runSim cfg d n).buf i ≤ cfg.buffers i) ∧
    (∀ X, 0 ≤ (runSim cfg d n).busy X ∧ (runSim cfg d n).busy X ≤ servers X) := by
  have hinv : InvC4 cfg (runSim cfg d n) :=
    runAux_invariant (InvC4 cfg)
      (fun s e rest hP hpm _ => invC4_step hcap hpm hP) n (initSt cfg)
      (initSt_invC4 cfg hcap)
  obtain ⟨h1, h2, h3, h4, h5⟩ := hinv
  have hbusy_nonneg : ∀ X, 0 ≤ (runSim cfg d n).busy X := by
    intro X
    rw [h1 X]
    exact Int.ofNat_nonneg _
  constructor
  · intro i
    refine ⟨h3 i, ?_⟩
    have := h4 i
    have := hbusy_nonneg (writerOf i)
    omega
  · intro X
    exact ⟨hbusy_nonneg X, by simpa [servers] using h2 X⟩

/-- C4 (witness): in the `cfgNoPause` run with durations 59, the `CF→Sep`
buffer level is within `[0, 10]` and every busy count within `[0, 1]`. -/
theorem C4_bounds_witness :
    (0 ≤ (runSim cfgNoPause dur59 12).buf 0
        ∧ (runSim cfgNoPause dur59 12).buf 0 ≤ cfgNoPause.buffers 0)
      ∧ (0 ≤ (runSim cfgNoPause dur59 12).busy .SEP
        ∧ (runSim cfgNoPause dur59 12).busy .SEP ≤ servers .SEP) :=
  ⟨(C4_bounds cfgNoPause dur59 (by decide) 12).1 0,
   (C4_bounds cfgNoPause dur59 (by decide) 12).2 .SEP⟩

theorem end_pause_cases_out (label : String) (pe : T) (s : St T) :
    (end_pause label pe s).cases_out = s.cases_out := rfl

theorem doneStation_cases_out (X : Station) (s : St T) :
    (doneStation cfg X s).cases_out = s.cases_out + (if X = .PAL then 1 else 0) := by
  cases X <;>
    first
      | rfl
      | (unfold doneStation
         dsimp only [inIdx, outIdx]
         rw [if_pos rfl, palTrack_cases_out]
         rfl)

theorem sum_indicator_option (jo : Option (Fin 7)) :
    (∑ i : Fin 7, (if jo = some i then (1 : ℤ) else 0))
      = if jo.isSome then 1 else 0 := by
  cases jo with
  | none => simp
  | some j => simp [Option.some.injEq]

theorem sumBuf_doneStation (X : Station) (s : St T) :
    sumBuf (doneStation cfg X s)
      = sumBuf s + (if (outIdx X).isSome then 1 else 0)
        - (if (inIdx X).isSome then 1 else 0) := by
  unfold sumBuf
  rw [Finset.sum_congr rfl (fun i _ => doneStation_buf X s i)]
  rw [Finset.sum_sub_distrib, Finset.sum_add_distrib]
  rw [sum_indicator_option, sum_indicator_option]

/-- Effect of one handler on the conserved quantity
`cases_out + total buffer stock`: it grows by one exactly on `done_CF`
(a newly formed case entering the line) and is otherwise unchanged. -/
theorem dispatch_Q (e : Event T) (s : St T) :
    ((dispatch cfg d e s).cases_out : ℤ) + sumBuf (dispatch cfg d e s)
      = (s.cases_out : ℤ) + sumBuf s
        + (if e.typ = .doneE .CF then 1 else 0) := by
  cases hk : e.typ with
  | tryE X =>
    rw [dispatch, hk]
    dsimp only
    rw [tryStation_cases_out]
    have : sumBuf (tryStation cfg d X s) = sumBuf s := by
      unfold sumBuf
      rw [tryStation_buf]
    rw [this]
    simp
  | doneE X =>
    rw [dispatch, hk]
    dsimp only
    rw [sumBuf_doneStation, doneStation_cases_out]
    cases X <;> simp [inIdx, outIdx] <;> push_cast <;> ring
  | pause_start =>
    rw [dispatch, hk]
    cases hp : e.payload with
    | none => simp
    | some q =>
      obtain ⟨lab, ps, pe⟩ := q
      dsimp only
      rw [mark_incomplete_cases_out]
      have : sumBuf (mark_incomplete cfg lab ps pe s) = sumBuf s := by
        unfold sumBuf
        rw [mark_incomplete_buf]
      rw [this]
      simp
  | pause_end =>
    rw [dispatch, hk]
    cases hp : e.payload with
    | none => simp
    | some q =>
      obtain ⟨lab, q1, q2⟩ := q
      dsimp only
      rw [end_pause_cases_out]
      have : sumBuf (end_pause lab q2 s) = sumBuf s := by
        unfold sumBuf
        rw [end_pause_buf]
      rw [this]
      simp

/-- Along a run, `cases_out + total buffer stock` equals its initial value
plus the number of processed `done_CF` events. -/
theorem runAux_Q :
    ∀ (n : ℕ) (s : St T),
      ((runAux cfg d n s).1.cases_out : ℤ) + sumBuf (runAux cfg d n s).1
        = (s.cases_out : ℤ) + sumBuf s
          + (countDone .CF (runAux cfg d n s).2 : ℤ) := by
  intro n
  induction n with
  | zero => intro s; simp [runAux, countDone]
  | succ n ih =>
    intro s
    rw [runAux]
    by_cases hc : s.h ≠ [] ∧ s.now < shiftEndOf cfg
    · rw [if_pos hc]
      cases hpm : popMin s.h with
      | none => simp [countDone]
      | some p =>
        obtain ⟨e, rest⟩ := p
        dsimp only
        rw [ih]
        rw [dispatch_Q]
        rw [countDone_cons]
        have hceq : ({ s with now := e.time, h := rest } : St T).cases_out
            = s.cases_out := rfl
        have hbeq : sumBuf ({ s with now := e.time, h := rest } : St T) = sumBuf s := rfl
        rw [hceq, hbeq]
        push_cast
        ring
    · rw [if_neg hc]
      simp [countDone]

/-- C3 (counterexample): the claimed deficit formula
`totalUnitsFormed - casesOut = Σ buffer levels + Σ busy counts` fails: in
the `cfgNoPause` run with durations 59, at the stop two cases have been
formed, none palletized, both sit in the `CF→Sep` buffer, and the
separator is busy — the deficit is 2 (= Σ buffers) but the claimed sum
is 3. -/
theorem C3_counterexample :
    ¬ (∀ n : ℕ,
        (countDone .CF (runTrace cfgNoPause dur59 n) : ℤ)
            - (runSim cfgNoPause dur59 n).cases_out
          = sumBuf (runSim cfgNoPause dur59 n) + sumBusy (runSim cfgNoPause dur59 n)) := by
  intro hcl
  exact absurd (hcl 30) (by decide)

/-- C3 (amended): at the moment the run stops, `casesOut` is at most the
number of first-station completions (`done_CF` events processed), and the
deficit equals the sum of the buffer levels alone.  Busy counts do not
enter: a unit in service at a downstream station still occupies its input
buffer until its `done_*` fires, and an in-flight case-former job is not
yet a formed unit. -/
theorem C3_conservation (cfg : Config) (d : ℕ → T) (hcap : ∀ i, 0 ≤ cfg.buffers i)
    (n : ℕ) :
    (runSim cfg d n).cases_out ≤ countDone .CF (runTrace cfg d n)
      ∧ (countDone .CF (runTrace cfg d n) : ℤ) - (runSim cfg d n).cases_out
          = sumBuf (runSim cfg d n) := by
  have hQ := @runAux_Q T _ _ cfg d n (initSt cfg)
  have hc0 : ((initSt (T := T) cfg).cases_out : ℤ) = 0 := rfl
  have hb0 : sumBuf (initSt (T := T) cfg) = 0 := by
    unfold sumBuf
    simp [initSt]
  rw [hc0, hb0] at hQ
  have hinv : InvC4 cfg (runSim cfg d n) :=
    runAux_invariant (InvC4 cfg)
      (fun s e rest hP hpm _ => invC4_step hcap hpm hP) n (initSt cfg)
      (initSt_invC4 cfg hcap)
  obtain ⟨-, -, h3, -, -⟩ := hinv
  have hsum_nonneg : 0 ≤ sumBuf (runSim cfg d n) :=
    Finset.sum_nonneg fun i _ => h3 i
  rw [runSim, runTrace] at *
  constructor
  · omega
  · omega

/-- C3 (witness): the conservation identity holds at the stop of the
`cfgNoPause` run with durations 59. -/
theorem C3_conservation_witness :
    (runSim cfgNoPause dur59 30).cases_out ≤ countDone .CF (runTrace cfgNoPause dur59 30)
      ∧ (countDone .CF (runTrace cfgNoPause dur59 30) : ℤ)
          - (runSim cfgNoPause dur59 30).cases_out
        = sumBuf (runSim cfgNoPause dur59 30) :=
  C3_conservation cfgNoPause dur59 (by decide) 30

theorem end_pause_lock_active (label : String) (pe : T) (s : St T) :
    (end_pause label pe s).lock_active = s.lock_active := rfl

theorem end_pause_lock_target (label : String) (pe : T) (s : St T) :
    (end_pause label pe s).lock_target_cases = s.lock_target_cases := rfl

theorem mark_incomplete_lock_active (label : String) (ps pe : T) (s : St T) :
    (mark_incomplete cfg label ps pe s).lock_active
      = if 0 < s.cases_out % cfg.cases_per_pallet then true else s.lock_active := by
  unfold mark_incomplete
  dsimp only
  split <;> rfl

theorem mark_incomplete_lock_target (label : String) (ps pe : T) (s : St T) :
    (mark_incomplete cfg label ps pe s).lock_target_cases
      = if 0 < s.cases_out % cfg.cases_per_pallet
        then some ((s.cases_out / cfg.cases_per_pallet + 1) * cfg.cases_per_pallet)
        else s.lock_target_cases := by
  unfold mark_incomplete
  dsimp only
  split <;> rfl

theorem doneStation_lock_of_ne (X : Station) (s : St T) (hne : X ≠ .PAL) :
    (doneStation cfg X s).lock_active = s.lock_active
      ∧ (doneStation cfg X s).lock_target_cases = s.lock_target_cases
      ∧ (doneStation cfg X s).cases_out = s.cases_out := by
  cases X <;> first | exact absurd rfl hne | exact ⟨rfl, rfl, rfl⟩

/-- The `done_PAL` tracking when the lock hits (target reached by the new
case count) and the count is a multiple of the pallet size: one COMPLETE
record is appended, the sequence counter advances, the lock clears. -/
theorem palTrack_lockHit {s : St T} {tgt : ℕ} (hlock : s.lock_active = true)
    (htgt : s.lock_target_cases = some tgt) (hle : tgt ≤ s.cases_out + 1)
    (hdvd : (s.cases_out + 1) % cfg.cases_per_pallet = 0) :
    palTrack cfg s =
      { s with cases_out := s.cases_out + 1, pallets := s.pallets + 1,
               events := s.events ++ [(s.pallets + 1, pyInt s.now, true)],
               lock_active := false, lock_target_cases := none } := by
  unfold palTrack
  dsimp only
  have hhit : (s.lock_active &&
      match s.lock_target_cases with
      | some t => decide (t ≤ s.cases_out + 1)
      | none => false) = true := by
    rw [hlock, htgt]
    simp [hle]
  rw [if_pos hhit, if_pos hdvd]

theorem palTrack_hit_clears {s : St T}
    (hhit : (s.lock_active &&
      match s.lock_target_cases with
      | some t => decide (t ≤ s.cases_out + 1)
      | none => false) = true) :
    (palTrack cfg s).lock_active = false ∧ (palTrack cfg s).lock_target_cases = none := by
  unfold palTrack
  dsimp only
  rw [if_pos hhit]
  split <;> exact ⟨rfl, rfl⟩

theorem palTrack_noHit {s : St T}
    (hmiss : (s.lock_active &&
      match s.lock_target_cases with
      | some t => decide (t ≤ s.cases_out + 1)
      | none => false) = false) :
    (palTrack cfg s).lock_active = s.lock_active
      ∧ (palTrack cfg s).lock_target_cases = s.lock_target_cases
      ∧ (palTrack cfg s).cases_out = s.cases_out + 1 := by
  unfold palTrack
  dsimp only
  rw [if_neg (by rw [hmiss]; exact Bool.false_ne_true)]
  split <;> exact ⟨rfl, rfl, rfl⟩

theorem lockInv_palTrack (hcpp : 0 < cfg.cases_per_pallet) (s : St T)
    (hinv : LockInv cfg.cases_per_pallet s) :
    LockInv cfg.cases_per_pallet (palTrack cfg s) := by
  cases hhit : (s.lock_active &&
      match s.lock_target_cases with
      | some t => decide (t ≤ s.cases_out + 1)
      | none => false) with
  | true =>
    intro hcon
    rw [(palTrack_hit_clears hhit).1] at hcon
    exact absurd hcon Bool.false_ne_true
  | false =>
    intro hla
    obtain ⟨ha, ht, hc⟩ := @palTrack_noHit T _ _ cfg _ hhit
    rw [ha] at hla
    obtain ⟨k, hk1, hktgt, hklo, hkhi⟩ := hinv hla
    refine ⟨k, hk1, ?_, ?_, ?_⟩
    · rw [ht, hktgt]
    · rw [hc]
      omega
    · rw [hc]
      rw [hla, hktgt] at hhit
      simp only [Bool.true_and, decide_eq_false_iff_not, not_le] at hhit
      exact hhit

theorem lockInv_step (hcpp : 0 < cfg.cases_per_pallet) {s : St T} {e : Event T}
    {rest : List (Event T)} (hpm : popMin s.h = some (e, rest))
    (hinv : LockInv cfg.cases_per_pallet s) :
    LockInv cfg.cases_per_pallet (dispatch cfg d e { s with now := e.time, h := rest }) := by
  set s0 : St T := { s with now := e.time, h := rest } with hs0
  have hinv0 : LockInv cfg.cases_per_pallet s0 := hinv
  cases hk : e.typ with
  | tryE X =>
    rw [dispatch, hk]
    dsimp only
    intro hla
    rw [tryStation_lock_active] at hla
    obtain ⟨k, hk1, hktgt, hklo, hkhi⟩ := hinv0 hla
    exact ⟨k, hk1, by rw [tryStation_lock_target, hktgt], by
      rw [tryStation_cases_out]; exact hklo, by rw [tryStation_cases_out]; exact hkhi⟩
  | doneE X =>
    rw [dispatch, hk]
    dsimp only
    by_cases hXP : X = .PAL
    · subst hXP
      exact lockInv_palTrack hcpp _ hinv0
    · intro hla
      obtain ⟨ha, ht, hc⟩ := @doneStation_lock_of_ne T _ _ cfg X s0 hXP
      rw [ha] at hla
      obtain ⟨k, hk1, hktgt, hklo, hkhi⟩ := hinv0 hla
      exact ⟨k, hk1, by rw [ht, hktgt], by rw [hc]; exact hklo, by rw [hc]; exact hkhi⟩
  | pause_start =>
    rw [dispatch, hk]
    cases hp : e.payload with
    | none => exact hinv0
    | some q =>
      obtain ⟨lab, ps, pe⟩ := q
      dsimp only
      intro hla
      rw [mark_incomplete_lock_active] at hla
      by_cases hmod : 0 < s0.cases_out % cfg.cases_per_pallet
      · refine ⟨s0.cases_out / cfg.cases_per_pallet + 1, Nat.le_add_left 1 _, ?_, ?_, ?_⟩
        · rw [mark_incomplete_lock_target, if_pos hmod]
        · rw [mark_incomplete_cases_out]
          have hsc : s0.cases_out = s.cases_out := rfl
          rw [hsc]
          simp only [Nat.add_sub_cancel]
          have hdm := Nat.div_add_mod s.cases_out cfg.cases_per_pallet
          have hcomm : cfg.cases_per_pallet * (s.cases_out / cfg.cases_per_pallet)
              = s.cases_out / cfg.cases_per_pallet * cfg.cases_per_pallet :=
            Nat.mul_comm _ _
          have hmods : 0 < s.cases_out % cfg.cases_per_pallet := hmod
          omega
        · rw [mark_incomplete_cases_out]
          have hsc : s0.cases_out = s.cases_out := rfl
          rw [hsc]
          have hdm := Nat.div_add_mod s.cases_out cfg.cases_per_pallet
          have hltm := Nat.mod_lt s.cases_out hcpp
          have hexp : (s.cases_out / cfg.cases_per_pallet + 1) * cfg.cases_per_pallet
              = s.cases_out / cfg.cases_per_pallet * cfg.cases_per_pallet
                + cfg.cases_per_pallet := by ring
          have hcomm : cfg.cases_per_pallet * (s.cases_out / cfg.cases_per_pallet)
              = s.cases_out / cfg.cases_per_pallet * cfg.cases_per_pallet :=
            Nat.mul_comm _ _
          omega
      · rw [if_neg hmod] at hla
        obtain ⟨k, hk1, hktgt, hklo, hkhi⟩ := hinv0 hla
        refine ⟨k, hk1, ?_, ?_, ?_⟩
        · rw [mark_incomplete_lock_target, if_neg hmod, hktgt]
        · rw [mark_incomplete_cases_out]
          exact hklo
        · rw [mark_incomplete_cases_out]
          exact hkhi
  | pause_end =>
    rw [dispatch, hk]
    cases hp : e.payload with
    | none => exact hinv0
    | some q =>
      obtain ⟨lab, q1, q2⟩ := q
      dsimp only
      intro hla
      rw [end_pause_lock_active] at hla
      obtain ⟨k, hk1, hktgt, hklo, hkhi⟩ := hinv0 hla
      exact ⟨k, hk1, by rw [end_pause_lock_target, hktgt], hklo, hkhi⟩

theorem palTrack_events_len (s : St T) :
    (palTrack cfg s).events.length ≤ s.events.length + 1 := by
  unfold palTrack
  dsimp only
  split <;> split <;> simp

theorem doneStation_events_len (X : Station) (s : St T) :
    (doneStation cfg X s).events.length ≤ s.events.length + 1 := by
  cases X <;>
    first
      | (unfold doneStation
         dsimp only [inIdx, outIdx]
         rw [if_pos rfl]
         exact palTrack_events_len _)
      | (simp [doneStation, inIdx, outIdx])

/-- C1: the pallet-lock invariant holds in every reachable state; a
terminal-station completion while a lock is active that raises `casesOut`
to (at least) the lock target appends exactly one CompletionRecord tagged
COMPLETE at the current time, increments the pallet sequence counter, and
clears the lock; and every `done_PAL` appends at most one
CompletionRecord. -/
theorem C1_pallet_lock (cfg : Config) (d : ℕ → T) (hcpp : 0 < cfg.cases_per_pallet) :
    (∀ n : ℕ, LockInv cfg.cases_per_pallet (runSim cfg d n)) ∧
    (∀ s : St T, LockInv cfg.cases_per_pallet s → s.lock_active = true →
      ∀ tgt : ℕ, s.lock_target_cases = some tgt → tgt ≤ s.cases_out + 1 →
        (doneStation cfg .PAL s).events
            = s.events ++ [(s.pallets + 1, pyInt s.now, true)]
          ∧ (doneStation cfg .PAL s).pallets = s.pallets + 1
          ∧ (doneStation cfg .PAL s).lock_active = false
          ∧ (doneStation cfg .PAL s).lock_target_cases = none) ∧
    (∀ s : St T, (doneStation cfg .PAL s).events.length ≤ s.events.length + 1) := by
  refine ⟨?_, ?_, fun s => doneStation_events_len .PAL s⟩
  · intro n
    exact runAux_invariant (LockInv cfg.cases_per_pallet)
      (fun s e rest hP hpm _ => lockInv_step hcpp hpm hP) n (initSt cfg)
      (fun hcon => absurd hcon (by simp [initSt]))
  · intro s hinv hlock tgt htgt hle
    obtain ⟨k, hk1, hktgt, hklo, hkhi⟩ := hinv hlock
    have htgteq : tgt = k * cfg.cases_per_pallet := by
      rw [htgt] at hktgt
      exact Option.some.inj hktgt.symm |>.symm
    have hceq : s.cases_out + 1 = k * cfg.cases_per_pallet := by omega
    have hdvd : (s.cases_out + 1) % cfg.cases_per_pallet = 0 := by
      rw [hceq]
      exact Nat.mul_mod_left k _
    have hpt := palTrack_lockHit (s :=
      { s with busy := Function.update s.busy .PAL (s.busy .PAL - 1),
               buf := Function.update s.buf 6 (s.buf 6 - 1) }) hlock htgt hle hdvd
    unfold doneStation
    dsimp only [inIdx, outIdx]
    rw [if_pos rfl]
    rw [hpt]
    exact ⟨rfl, rfl, rfl, rfl⟩

/-- C1 (witness): at 107 of 108 cases under an active lock with target
108, the next `done_PAL` appends one COMPLETE record `(1, 5)`, advances
the pallet counter and clears the lock. -/
theorem C1_pallet_lock_witness :
    (doneStation cfgPallet .PAL stLock).events = [(1, 5, true)]
      ∧ (doneStation cfgPallet .PAL stLock).pallets = 1
      ∧ (doneStation cfgPallet .PAL stLock).lock_active = false
      ∧ (doneStation cfgPallet .PAL stLock).lock_target_cases = none := by
  have h := (C1_pallet_lock cfgPallet dur1 (by norm_num [cfgPallet])).2.1 stLock
    (fun _ => ⟨1, by norm_num, by decide, by decide, by decide⟩) (by decide)
    108 (by decide) (by decide)
  obtain ⟨h1, h2, h3, h4⟩ := h
  refine ⟨?_, h2, h3, h4⟩
  rw [h1]
  decide

theorem pyInt_mono {a b : T} (hab : a ≤ b) : pyInt a ≤ pyInt b := by
  unfold pyInt
  by_cases ha : 0 ≤ a
  · rw [if_pos ha, if_pos (ha.trans hab)]
    exact Int.floor_le_floor hab
  · rw [if_neg ha]
    by_cases hb : 0 ≤ b
    · rw [if_pos hb]
      have h1 : ⌈a⌉ ≤ 0 := Int.ceil_le.2 (by exact_mod_cast le_of_not_le ha)
      have h2 : (0 : ℤ) ≤ ⌊b⌋ := Int.le_floor.2 (by exact_mod_cast hb)
      omega
    · rw [if_neg hb]
      exact Int.ceil_le_ceil hab

theorem end_pause_events (label : String) (pe : T) (s : St T) :
    (end_pause label pe s).events = s.events := rfl

theorem end_pause_pallets (label : String) (pe : T) (s : St T) :
    (end_pause label pe s).pallets = s.pallets := rfl

theorem doneStation_events_of_ne (X : Station) (s : St T) (hne : X ≠ .PAL) :
    (doneStation cfg X s).events = s.events
      ∧ (doneStation cfg X s).pallets = s.pallets := by
  cases X <;> first | exact absurd rfl hne | exact ⟨rfl, rfl⟩

theorem palTrack_events_cases (s : St T) :
    ((palTrack cfg s).events = s.events ∧ (palTrack cfg s).pallets = s.pallets)
      ∨ (∃ b : Bool,
          (palTrack cfg s).events = s.events ++ [(s.pallets + 1, pyInt s.now, b)]
            ∧ (palTrack cfg s).pallets = s.pallets + 1) := by
  unfold palTrack
  dsimp only
  split
  · split
    · exact Or.inr ⟨true, rfl, rfl⟩
    · exact Or.inl ⟨rfl, rfl⟩
  · split
    · exact Or.inr ⟨false, rfl, rfl⟩
    · exact Or.inl ⟨rfl, rfl⟩

theorem doneStation_PAL_events_cases (s : St T) :
    ((doneStation cfg .PAL s).events = s.events
        ∧ (doneStation cfg .PAL s).pallets = s.pallets)
      ∨ (∃ b : Bool,
          (doneStation cfg .PAL s).events = s.events ++ [(s.pallets + 1, pyInt s.now, b)]
            ∧ (doneStation cfg .PAL s).pallets = s.pallets + 1) := by
  unfold doneStation
  dsimp only [inIdx, outIdx]
  rw [if_pos rfl]
  exact palTrack_events_cases _

/-- Preservation of the completion-list invariant by one step of the run
loop (given nonnegative durations). -/
theorem eventsInv_step (hd : ∀ k, 0 ≤ d k) {s : St T} {e : Event T}
    {rest : List (Event T)} (hpm : popMin s.h = some (e, rest))
    (hR : EventsInv s ∧ PauseEndWf s ∧ (PendingGeNow s ∨ s.events = [])) :
    EventsInv (dispatch cfg d e { s with now := e.time, h := rest })
      ∧ PauseEndWf (dispatch cfg d e { s with now := e.time, h := rest })
      ∧ (PendingGeNow (dispatch cfg d e { s with now := e.time, h := rest })
          ∨ (dispatch cfg d e { s with now := e.time, h := rest }).events = []) := by
  obtain ⟨⟨hlen, hseq, hchain, hts⟩, hwf, hpg⟩ := hR
  have hstep := @step_pending_ge T _ _ cfg d hd _ _ _ hpm hwf
  refine ⟨?_, hstep.2, Or.inl ?_⟩
  swap
  · intro x hx
    rw [dispatch_now]
    exact hstep.1 x hx
  set s0 : St T := { s with now := e.time, h := rest } with hs0
  have hmono0 : ∀ r ∈ s0.events, r.2.1 ≤ pyInt s0.now := by
    rcases hpg with hpg | hempty
    · intro r hr
      exact (hts r hr).trans (pyInt_mono (hpg e (popMin_mem hpm)))
    · intro r hr
      have : r ∈ s.events := hr
      rw [hempty] at this
      simp at this
  have hlen0 : s0.pallets = s0.events.length := hlen
  have hseq0 : s0.events.map Prod.fst = List.range' 1 s0.pallets := hseq
  have hchain0 : List.Chain' (· ≤ ·) (s0.events.map fun r => r.2.1) := hchain
  cases hk : e.typ with
  | tryE X =>
    rw [dispatch, hk]
    dsimp only
    refine ⟨?_, ?_, ?_, ?_⟩
    · rw [tryStation_pallets, tryStation_events]
      exact hlen0
    · rw [tryStation_pallets, tryStation_events]
      exact hseq0
    · rw [tryStation_events]
      exact hchain0
    · intro r hr
      rw [tryStation_events] at hr
      rw [tryStation_now]
      exact hmono0 r hr
  | doneE X =>
    rw [dispatch, hk]
    dsimp only
    by_cases hXP : X = .PAL
    · subst hXP
      rcases @doneStation_PAL_events_cases T _ _ cfg s0 with ⟨he, hp⟩ | ⟨b, he, hp⟩
      · refine ⟨?_, ?_, ?_, ?_⟩
        · rw [hp, he]; exact hlen0
        · rw [hp, he]; exact hseq0
        · rw [he]; exact hchain0
        · intro r hr
          rw [he] at hr
          rw [doneStation_now]
          exact hmono0 r hr
      · refine ⟨?_, ?_, ?_, ?_⟩
        · rw [hp, he, List.length_append, hlen0]
          simp
        · rw [hp, he, List.map_append, hseq0, List.range'_concat]
          simp [Nat.add_comm]
        · rw [he, List.map_append]
          rw [List.chain'_append]
          refine ⟨hchain0, by simp, ?_⟩
          intro x hx y hy
          simp only [List.map_cons, List.map_nil, List.head?_cons,
            Option.mem_def, Option.some.injEq] at hy
          subst hy
          have hx' : x ∈ s0.events.map fun r => r.2.1 :=
            List.mem_of_mem_getLast? hx
          simp only [List.mem_map] at hx'
          obtain ⟨r, hr, hrx⟩ := hx'
          subst hrx
          exact hmono0 r hr
        · intro r hr
          rw [he] at hr
          rw [doneStation_now]
          rcases List.mem_append.1 hr with hr0 | hr1
          · exact hmono0 r hr0
          · simp only [List.mem_singleton] at hr1
            subst hr1
            exact le_refl _
    · obtain ⟨he, hp⟩ := @doneStation_events_of_ne T _ _ cfg X s0 hXP
      refine ⟨?_, ?_, ?_, ?_⟩
      · rw [hp, he]; exact hlen0
      · rw [hp, he]; exact hseq0
      · rw [he]; exact hchain0
      · intro r hr
        rw [he] at hr
        rw [doneStation_now]
        exact hmono0 r hr
  | pause_start =>
    rw [dispatch, hk]
    cases hp : e.payload with
    | none => exact ⟨hlen0, hseq0, hchain0, hmono0⟩
    | some q =>
      obtain ⟨lab, ps, pe⟩ := q
      dsimp only
      refine ⟨?_, ?_, ?_, ?_⟩
      · rw [mark_incomplete_pallets, mark_incomplete_events]
        exact hlen0
      · rw [mark_incomplete_pallets, mark_incomplete_events]
        exact hseq0
      · rw [mark_incomplete_events]
        exact hchain0
      · intro r hr
        rw [mark_incomplete_events] at hr
        rw [mark_incomplete_now]
        exact hmono0 r hr
  | pause_end =>
    rw [dispatch, hk]
    cases hp : e.payload with
    | none => exact ⟨hlen0, hseq0, hchain0, hmono0⟩
    | some q =>
      obtain ⟨lab, q1, q2⟩ := q
      dsimp only
      refine ⟨?_, ?_, ?_, ?_⟩
      · rw [end_pause_pallets, end_pause_events]
        exact hlen0
      · rw [end_pause_pallets, end_pause_events]
        exact hseq0
      · rw [end_pause_events]
        exact hchain0
      · intro r hr
        rw [end_pause_events] at hr
        rw [end_pause_now]
        exact hmono0 r hr

/-- C10: at the end of every run (any fuel, nonnegative durations), the
pallet counter equals the length of the completion list, the sequence
numbers are exactly `1, 2, …, pallets_out` in order, and the timestamps
are non-decreasing. -/
theorem C10_events_sequence (cfg : Config) (d : ℕ → T) (hd : ∀ k, 0 ≤ d k) (n : ℕ) :
    (runSim cfg d n).pallets = (runSim cfg d n).events.length
      ∧ (runSim cfg d n).events.map Prod.fst = List.range' 1 (runSim cfg d n).pallets
      ∧ List.Chain' (· ≤ ·) ((runSim cfg d n).events.map fun r => r.2.1) := by
  have hinv := @runAux_invariant T _ _ cfg d
    (fun s => EventsInv s ∧ PauseEndWf s ∧ (PendingGeNow s ∨ s.events = []))
    (fun s e rest hP hpm _ => @eventsInv_step T _ _ cfg d hd _ _ _ hpm hP) n (initSt cfg)
    ⟨⟨rfl, rfl, List.chain'_nil, by intro r hr; simp [initSt] at hr⟩,
      initSt_pauseEndWf cfg, Or.inr rfl⟩
  exact ⟨hinv.1.1, hinv.1.2.1, hinv.1.2.2.1⟩

/-- C10 (witness): the `cfgPipeline` run with unit durations and fuel 150
produces pallets `1, 2` with non-decreasing timestamps. -/
theorem C10_events_sequence_witness :
    (runSim cfgPipeline dur1 150).pallets = (runSim cfgPipeline dur1 150).events.length
      ∧ (runSim cfgPipeline dur1 150).events.map Prod.fst
          = List.range' 1 (runSim cfgPipeline dur1 150).pallets
      ∧ List.Chain' (· ≤ ·) ((runSim cfgPipeline dur1 150).events.map fun r => r.2.1) :=
  C10_events_sequence cfgPipeline dur1 (fun _ => by norm_num [dur1]) 150

end PackagingSim
